import Mathlib

/-!
Verification of the vLGP core inference engine (`vlgp/core.py`) against its
natural-language specification.  The Python source is shallowly embedded:
numpy arrays become functions/`Matrix` over exact fields (`ℚ` where the code
is pure rational arithmetic, `ℝ` where `exp`/`sqrt`/linear solves appear),
`scipy.linalg.solve` becomes multiplication by the matrix inverse guarded by
invertibility, `try/except` becomes an explicit branch, and `numpy.empty`'s
uninitialized contents become an explicit parameter.
-/

namespace VLGP

/-! ### Channel-type codes (`vlgp/constant.py`) -/

def UNUSED : ℤ := 0

def SPIKE : ℤ := 1

def LFP : ℤ := 2

def INACTIVE : ℤ := -1

/-! ### Initializer channel classification (`core.py`, `initialize`, lines 199-202)

`model['noise'] = var(y_, axis=0, ddof=0)` followed by
`model[Y_TYPE][model['noise'] == 0] = INACTIVE` and zeroing of the
corresponding columns of `a` and `b`.  `y_` is the observation tensor with
trials and time bins flattened into one row axis. -/

/-- `numpy.var(ys, ddof=0)`: mean of squared deviations from the mean. -/
def npVar {n : ℕ} (ys : Fin n → ℚ) : ℚ :=
  (∑ i, (ys i - (∑ i, ys i) / n) ^ 2) / n

/-- Per-channel noise from `initialize`: pooled sample variance of the
channel over all trials and time bins (`var(y_, axis=0, ddof=0)`). -/
def initNoise {n d : ℕ} (y_ : Fin n → Fin d → ℚ) : Fin d → ℚ :=
  fun c => npVar (fun j => y_ j c)

/-- `model[Y_TYPE][model['noise'] == 0] = INACTIVE`. -/
def initTypes {d : ℕ} (types : Fin d → ℤ) (noise : Fin d → ℚ) : Fin d → ℤ :=
  fun c => if noise c = 0 then INACTIVE else types c

/-- `a[:, model[Y_TYPE] == INACTIVE] = 0`. -/
def initZeroCols {z d : ℕ} (m : Fin z → Fin d → ℚ) (types : Fin d → ℤ) :
    Fin z → Fin d → ℚ :=
  fun k c => if types c = INACTIVE then 0 else m k c

/-! ### Postprocessor key mutations (`core.py`, `postprocess`, lines 548-583)

Only the dictionary-key effects are modelled here: the function stores the
computed covariance square root under `'L'`, then `pop`s `'h'`, then `pop`s
`'stat'`.  `dict.pop` on a missing key raises `KeyError`; the mutations made
before the raise persist, so the error carries the already-mutated model. -/

inductive DictKey : Type
  | keyH : DictKey
  | keyStat : DictKey
deriving DecidableEq, Repr

/-- The three model keys `postprocess` touches; other fields of the model
dict are untouched by the key-level effects and are elided. -/
structure PModel (α β γ : Type) where
  L : Option α
  h : Option β
  stat : Option γ
deriving DecidableEq, Repr

/-- `model.pop('h')`: remove the key or raise `KeyError` leaving the
(already mutated) model as is. -/
def popH {α β γ : Type} (m : PModel α β γ) :
    Except (DictKey × PModel α β γ) (PModel α β γ) :=
  match m.h with
  | some _ => .ok { m with h := none }
  | none => .error (.keyH, m)

/-- `model.pop('stat')`. -/
def popStat {α β γ : Type} (m : PModel α β γ) :
    Except (DictKey × PModel α β γ) (PModel α β γ) :=
  match m.stat with
  | some _ => .ok { m with stat := none }
  | none => .error (.keyStat, m)

/-- Key-level effect of `postprocess`: `model['L'] = L`, then
`model.pop('h')`, then `model.pop('stat')`.  The numeric computation of `L`
(eigendecomposition of the Woodbury-reduced covariance) is abstracted as
`computeL`; only its placement before the pops matters here. -/
def postprocessKeys {α β γ : Type} (computeL : PModel α β γ → α)
    (m : PModel α β γ) : Except (DictKey × PModel α β γ) (PModel α β γ) :=
  match popH { m with L := some (computeL m) } with
  | .error e => .error e
  | .ok m2 => popStat m2

/-! ### VEM driver callback handling (`core.py`, `vem`, lines 505-509)

```python
for callback in callbacks:
    try:
        callback(model)
    finally:
        pass
```

`try/finally` runs the (empty) finalizer and then re-raises: it does NOT
catch the exception.  The embedding makes the exception flow explicit with
`Except`; the driver loop is polymorphic in the model state and in what the
three steps do, since the claim is purely about the driver's control flow. -/

/-- `try: act finally: pass` — the empty finalizer runs, then the result
(normal value or exception) of `act` stands unchanged. -/
def tryFinallyNoop {ε α : Type} : Except ε α → Except ε α
  | .ok a => .ok a
  | .error e => .error e

/-- The callback loop of `vem`: each callback in order, wrapped in
`try/finally: pass`.  A callback may mutate the model, so it maps the model
to a new model (or an exception). -/
def runCallbacks {ε α : Type} : List (α → Except ε α) → α → Except ε α
  | [], m => .ok m
  | cb :: rest, m =>
    match tryFinallyNoop (cb m) with
    | .ok m2 => runCallbacks rest m2
    | .error e => .error e

/-- The outer loop of `vem`: up to `niter` iterations of
steps → callbacks → convergence test.  `steps` bundles the E/M/H step
composition (each skippable by configuration), `converged` the joint
relative-norm convergence predicate. -/
def vemIterate {ε α : Type} (steps : α → α) (cbs : List (α → Except ε α))
    (converged : α → Bool) : ℕ → α → Except ε α
  | 0, m => .ok m
  | Nat.succ n, m =>
    match runCallbacks cbs (steps m) with
    | .error e => .error e
    | .ok m2 => if converged m2 then .ok m2 else vemIterate steps cbs converged n m2

/-! ### H-step hyperparameter acceptance (`core.py`, `hstep`, lines 437-455)

```python
if not np.any(np.isclose(omega_new, options['omega_bound'])):
    omega[z_dim] = omega_new
sigma[z_dim] = sqrt(sigmasq)
```

The external optimizer `gp.optim` returns `(sigmasq, omega_new, _)`; the
step accepts the timescale only if it is not `np.isclose` to either bound
and always accepts the scale.  `np.isclose` with default tolerances is
`|x - y| <= atol + rtol*|y|`, `rtol = 1e-5`, `atol = 1e-8`. -/

/-- `np.isclose(x, y)` with numpy's default tolerances. -/
def npIsClose (x y : ℝ) : Prop := |x - y| ≤ 1e-8 + 1e-5 * |y|

open Classical in
/-- Per-dimension hyperparameter acceptance: the returned timescale
`omega_new` replaces `omega_old` unless it is `np.isclose` to either entry
of `omega_bound`; the returned scale is always accepted as
`sigma = sqrt(sigmasq)` (a boundary result takes the rejecting branch, it
never raises: the update is a total function). -/
noncomputable def hstepAccept (omega_old _sigma_old omega_new sigmasq : ℝ)
    (bound : ℝ × ℝ) : ℝ × ℝ :=
  (if npIsClose omega_new bound.1 ∨ npIsClose omega_new bound.2 then omega_old
   else omega_new,
   Real.sqrt sigmasq)

/-! ### Constraint Projector (`core.py`, `constrain_mu` lines 637-648 and
`constrain_a` lines 651-674)

`constrain_mu` works on `mu` reshaped to (trials·time, z): it subtracts the
column mean over all rows and adds `mean @ a` into row 0 of `b` (the
intercept row).  `constrain_a` either rescales each loading row by its
vector norm plus `eps` (compensating on the columns of `mu`), or replaces
`a` by the right-singular-vector factor `Vh` of its SVD (compensating with
`mu @ a @ Vh.T`).  The row index of the flattened `mu` is an arbitrary
finite type `ι`; the external vector norm `nrm` (`scipy.linalg.norm` with
the configured `ord`) and the external SVD factors are parameters. -/

variable {ι : Type} [Fintype ι]

/-- The fitted linear predictor
`eta = mu @ a + einsum('ijk, ki -> ji', x, b)` shared by `elbo`, `estep`,
`mstep` and `update_w`. -/
def linPred {z y nr : ℕ} (mu_ : Matrix ι (Fin z) ℝ)
    (a : Matrix (Fin z) (Fin y) ℝ) (x : Fin y → ι → Fin nr → ℝ)
    (b : Matrix (Fin nr) (Fin y) ℝ) : ι → Fin y → ℝ :=
  fun j c => (mu_ * a) j c + ∑ p, x c j p * b p c

/-- `constrain_mu`: subtract the cross-trial column mean of `mu`, add
`mean_over_trials @ a` to the intercept row `b[0, :]`.  Returns the new
`(mu, b)`. -/
noncomputable def constrainMu {z y nr : ℕ} (mu_ : Matrix ι (Fin z) ℝ)
    (a : Matrix (Fin z) (Fin y) ℝ) (b : Matrix (Fin (nr + 1)) (Fin y) ℝ) :
    Matrix ι (Fin z) ℝ × Matrix (Fin (nr + 1)) (Fin y) ℝ :=
  let mean : Fin z → ℝ := fun k => (∑ j, mu_ j k) / (Fintype.card ι : ℝ)
  (Matrix.of fun j k => mu_ j k - mean k,
   Matrix.of fun p c => if p = 0 then b p c + ∑ k, mean k * a k c else b p c)

/-- `constrain_a` with a norm specification: `s = norm(a, ord, axis=1) + eps`,
`a /= s` rowwise, `mu *= s` columnwise.  Returns the new `(mu, a)`. -/
noncomputable def constrainANorm {z y : ℕ} (nrm : (Fin y → ℝ) → ℝ) (eps : ℝ)
    (mu_ : Matrix ι (Fin z) ℝ) (a : Matrix (Fin z) (Fin y) ℝ) :
    Matrix ι (Fin z) ℝ × Matrix (Fin z) (Fin y) ℝ :=
  let s : Fin z → ℝ := fun k => nrm (fun c => a k c) + eps
  (Matrix.of fun j k => mu_ j k * s k,
   Matrix.of fun k c => a k c / s k)

/-- `constrain_a` with `'svd'`: `U, s, Vh = svd(a, full_matrices=False)`,
`mu = mu @ a @ Vh.T`, `a = Vh`.  The external SVD factor `Vh` is a
parameter; the reshape back to `(ntrial, nbin, z)` forces the reduced
dimension to equal `z` (the `z ≤ y` case).  Returns the new `(mu, a)`. -/
def constrainASvd {z y : ℕ} (mu_ : Matrix ι (Fin z) ℝ)
    (a : Matrix (Fin z) (Fin y) ℝ) (Vh : Matrix (Fin z) (Fin y) ℝ) :
    Matrix ι (Fin z) ℝ × Matrix (Fin z) (Fin y) ℝ :=
  (mu_ * a * Vh.transpose, Vh)

/-! ### Observation model and ELBO data log-likelihood (`core.py`, `elbo`,
lines 59-120; shared link and rate from §4.1) -/

/-- Modelled from the spec: `sexp` is imported from the missing
`vlgp/math.py`; spec §4.1 and §4.5 give the conditional mean as
`r = exp(eta + 0.5·v·a²)`, so the link is the exponential. -/
noncomputable def sexp (t : ℝ) : ℝ := Real.exp t

/-- The firing rate `r = sexp(eta + 0.5 * v @ (a ** 2))`. -/
noncomputable def rate {z y : ℕ} (eta : ι → Fin y → ℝ)
    (v_ : Matrix ι (Fin z) ℝ) (a : Matrix (Fin z) (Fin y) ℝ) :
    ι → Fin y → ℝ :=
  fun j c => sexp (eta j c + 0.5 * ∑ k, v_ j k * a k c ^ 2)

/-- The data log-likelihood `ll` returned by `elbo` (lines 82-94):
`llspike = sum(y*eta - r)` over spike channels plus
`lllfp = -0.5*sum(((y-eta)**2 + v @ (a**2))/noise + log(noise))` over LFP
channels.  Rows `ι` range over the flattened (trial, time) axis. -/
noncomputable def elbo_ll {z y nr : ℕ} (y_ : ι → Fin y → ℝ)
    (x : Fin y → ι → Fin nr → ℝ) (mu_ v_ : Matrix ι (Fin z) ℝ)
    (a : Matrix (Fin z) (Fin y) ℝ) (b : Matrix (Fin nr) (Fin y) ℝ)
    (noise : Fin y → ℝ) (types : Fin y → ℤ) : ℝ :=
  let eta := linPred mu_ a x b
  let r := rate eta v_ a
  (∑ j, ∑ c, if types c = SPIKE then y_ j c * eta j c - r j c else 0) +
    (-0.5 * ∑ j, ∑ c, if types c = LFP then
      ((y_ j c - eta j c) ^ 2 + ∑ k, v_ j k * a k c ^ 2) / noise c +
        Real.log (noise c)
      else 0)

/-- Modelled from the claim's words, for comparison with `elbo_ll`: the
Gaussian term exactly as the claim states it,
`-½ Σ [(y - eta)² / noise + log noise]`, without the posterior-variance
correction `v·a²` that the code adds to the squared residual. -/
noncomputable def elbo_ll_claimed {z y nr : ℕ} (y_ : ι → Fin y → ℝ)
    (x : Fin y → ι → Fin nr → ℝ) (mu_ v_ : Matrix ι (Fin z) ℝ)
    (a : Matrix (Fin z) (Fin y) ℝ) (b : Matrix (Fin nr) (Fin y) ℝ)
    (noise : Fin y → ℝ) (types : Fin y → ℤ) : ℝ :=
  let eta := linPred mu_ a x b
  let r := rate eta v_ a
  (∑ j, ∑ c, if types c = SPIKE then y_ j c * eta j c - r j c else 0) +
    (-0.5 * ∑ j, ∑ c, if types c = LFP then
      (y_ j c - eta j c) ^ 2 / noise c + Real.log (noise c)
      else 0)

/-! ### M-step (`core.py`, `mstep`, lines 322-407)

One inner pass: `eta` and `r` are computed once from the pass-start `(a, b)`
(lines 345-347), the LFP noise is re-estimated (line 348), then the channel
loop updates the columns `a[:, c]`, `b[:, c]` one channel at a time, each
channel's branch reading only the frozen `eta`/`r`/`mu`/`v` and its own
columns.  Regressors are indexed by `Fin (nr + 1)` with the intercept at
index 0.  `scipy.linalg.solve` becomes multiplication by the matrix
inverse; inside `try/except` the `except` branch (gradient step) is taken
exactly when the system is singular; the LFP solves have no `try/except`
in the code (a singular system raises there), so they are embedded as the
plain inverse and the theorems about them carry invertibility
hypotheses. -/

/-- `clip(delta, bound)` (lines 586-593): clamp elementwise to
`[-bound, bound]`. -/
noncomputable def clipR (bound t : ℝ) : ℝ := max (-bound) (min t bound)

open Classical in
/-- `try: solve(A, rhs, sym_pos=True) except: fallback` — the unique
solution when `A` is invertible, the fallback branch otherwise. -/
noncomputable def trySolveV {n : ℕ} (A : Matrix (Fin n) (Fin n) ℝ)
    (rhs fallback : Fin n → ℝ) : Fin n → ℝ :=
  if IsUnit A.det then A⁻¹.mulVec rhs else fallback

/-- `numpy.var(f, ddof=0)` over the flattened rows, real version. -/
noncomputable def npVarR (f : ι → ℝ) : ℝ :=
  (∑ j, (f j - (∑ j, f j) / (Fintype.card ι : ℝ)) ^ 2) /
    (Fintype.card ι : ℝ)

/-- Per-pass LFP noise re-estimation (line 348):
`model['noise'] = var(y_ - eta, axis=0, ddof=0)`. -/
noncomputable def mstepNoise {z y nr : ℕ} (y_ : ι → Fin y → ℝ)
    (x : Fin y → ι → Fin nr → ℝ) (mu_ : Matrix ι (Fin z) ℝ)
    (a : Matrix (Fin z) (Fin y) ℝ) (b : Matrix (Fin nr) (Fin y) ℝ) :
    Fin y → ℝ :=
  fun c => npVarR (fun j => y_ j c - linPred mu_ a x b j c)

/-- LFP loading update (lines 391-393): solve
`(muᵀmu + diag(Σv)) a = muᵀ (y - H b)` with the channel's pre-update
regression column. -/
noncomputable def mstepLfpA {z nr : ℕ} (mu_ v_ : Matrix ι (Fin z) ℝ)
    (yc : ι → ℝ) (xc : ι → Fin (nr + 1) → ℝ) (bcol : Fin (nr + 1) → ℝ) :
    Fin z → ℝ :=
  (mu_.transpose * mu_ + Matrix.diagonal (fun k => ∑ j, v_ j k))⁻¹.mulVec
    (mu_.transpose.mulVec (fun j => yc j - ∑ p, xc j p * bcol p))

/-- LFP regression solve (lines 397-398): solve
`(HᵀH) b = Hᵀ (y - mu a)` with the just-updated loading column. -/
noncomputable def mstepLfpBSolve {z nr : ℕ} (mu_ : Matrix ι (Fin z) ℝ)
    (yc : ι → ℝ) (xc : ι → Fin (nr + 1) → ℝ) (newa : Fin z → ℝ) :
    Fin (nr + 1) → ℝ :=
  ((Matrix.of xc).transpose * Matrix.of xc)⁻¹.mulVec
    ((Matrix.of xc).transpose.mulVec (fun j => yc j - ∑ k, mu_ j k * newa k))

/-- One channel of the M-step channel loop (lines 350-401), acting on the
channel's own loading/regression columns with the pass-frozen `r`:
SPIKE → Newton (or gradient-fallback) updates with clipping;
LFP → the two closed-form solves, then `b[1:, c] = 0` (line 399);
INACTIVE/UNUSED → `pass`. -/
noncomputable def mstepChannel {z y nr : ℕ} (hessian : Bool)
    (lr da_bound db_bound : ℝ) (y_ : ι → Fin y → ℝ)
    (x : Fin y → ι → Fin (nr + 1) → ℝ) (mu_ v_ : Matrix ι (Fin z) ℝ)
    (r : ι → Fin y → ℝ) (types : Fin y → ℤ) (c : Fin y)
    (acol : Fin z → ℝ) (bcol : Fin (nr + 1) → ℝ) :
    (Fin z → ℝ) × (Fin (nr + 1) → ℝ) :=
  if types c = SPIKE then
    let mpv : ι → Fin z → ℝ := fun j k => mu_ j k + v_ j k * acol k
    let grad_a : Fin z → ℝ :=
      fun k => (∑ j, mu_ j k * y_ j c) - ∑ j, mpv j k * r j c
    let neghess_a : Matrix (Fin z) (Fin z) ℝ :=
      Matrix.of fun k l => (∑ j, mpv j k * (r j c * mpv j l)) +
        if k = l then ∑ j, r j c * v_ j l else 0
    let delta_a : Fin z → ℝ := fun k => clipR da_bound
      ((if hessian then trySolveV neghess_a grad_a (fun k => lr * grad_a k)
        else fun k => lr * grad_a k) k)
    let newa : Fin z → ℝ := fun k => acol k + delta_a k
    let grad_b : Fin (nr + 1) → ℝ :=
      fun p => ∑ j, x c j p * (y_ j c - r j c)
    let neghess_b : Matrix (Fin (nr + 1)) (Fin (nr + 1)) ℝ :=
      Matrix.of fun p q => ∑ j, x c j p * (r j c * x c j q)
    let delta_b : Fin (nr + 1) → ℝ := fun p => clipR db_bound
      ((if hessian then trySolveV neghess_b grad_b (fun p => lr * grad_b p)
        else fun p => lr * grad_b p) p)
    (newa, fun p => bcol p + delta_b p)
  else if types c = LFP then
    let newa := mstepLfpA mu_ v_ (fun j => y_ j c) (fun j p => x c j p) bcol
    let bsol := mstepLfpBSolve mu_ (fun j => y_ j c) (fun j p => x c j p) newa
    (newa, fun p => if p = 0 then bsol 0 else 0)
  else (acol, bcol)

/-- In-place loop over column indices: each step rewrites exactly the
current index's column from its own previous value. -/
def colFold {κ β : Type} [DecidableEq κ] (f : κ → β → β) (ds : List κ)
    (s : κ → β) : κ → β :=
  ds.foldl (fun s c => fun d => if d = c then f c (s c) else s d) s

/-- One M-step inner pass over all channels (lines 344-401, constraint and
convergence lines excluded): freeze `eta`/`r` from the pass-start `(a, b)`,
then run the channel loop. -/
noncomputable def mstepPass {z y nr : ℕ} (hessian : Bool)
    (lr da_bound db_bound : ℝ) (y_ : ι → Fin y → ℝ)
    (x : Fin y → ι → Fin (nr + 1) → ℝ) (mu_ v_ : Matrix ι (Fin z) ℝ)
    (types : Fin y → ℤ) (a : Matrix (Fin z) (Fin y) ℝ)
    (b : Matrix (Fin (nr + 1)) (Fin y) ℝ) :
    Matrix (Fin z) (Fin y) ℝ × Matrix (Fin (nr + 1)) (Fin y) ℝ :=
  let r := rate (linPred mu_ a x b) v_ a
  let s := colFold
    (fun c ab => mstepChannel hessian lr da_bound db_bound y_ x mu_ v_ r
      types c ab.1 ab.2)
    (List.finRange y) (fun c => (fun k => a k c, fun p => b p c))
  (Matrix.of fun k c => (s c).1 k, Matrix.of fun p c => (s c).2 p)

/-! ### Working weight and VB variance (`core.py`, `update_w` lines 596-615,
`update_v` lines 618-634; the E-step recomputes both with the same
expressions at lines 300-313)

`U = empty_like(r)` (resp. `empty((nbin, y_ndim))` in `estep`) is filled
only on SPIKE and LFP columns; other columns keep arbitrary uninitialized
contents, made explicit as the `uninitU` parameter. -/

/-- The per-channel curvature buffer `U`: `r` on spike columns, `1/noise`
on LFP columns, uninitialized elsewhere. -/
noncomputable def workingU {y : ℕ} (types : Fin y → ℤ) (noise : Fin y → ℝ)
    (r uninitU : ι → Fin y → ℝ) : ι → Fin y → ℝ :=
  fun t c => if types c = SPIKE then r t c
    else if types c = LFP then 1 / noise c
    else uninitU t c

/-- `U @ (a.T ** 2)`: the GLM working weight per (row, latent). -/
noncomputable def glmWeight {z y : ℕ} (a : Matrix (Fin z) (Fin y) ℝ)
    (U : ι → Fin y → ℝ) : Matrix ι (Fin z) ℝ :=
  Matrix.of fun t k => ∑ c, U t c * a k c ^ 2

/-- `update_w` (lines 596-615): recompute `eta`, `r` and the working
weight `w = U @ (a.T ** 2)` over the flattened rows. -/
noncomputable def update_w {z y nr : ℕ} (types : Fin y → ℤ)
    (noise : Fin y → ℝ) (x : Fin y → ι → Fin nr → ℝ)
    (mu_ v_ : Matrix ι (Fin z) ℝ) (a : Matrix (Fin z) (Fin y) ℝ)
    (b : Matrix (Fin nr) (Fin y) ℝ) (uninitU : ι → Fin y → ℝ) :
    Matrix ι (Fin z) ℝ :=
  glmWeight a (workingU types noise (rate (linPred mu_ a x b) v_ a) uninitU)

/-- `wadj * G`: broadcasting the per-time weight over the columns of the
prior factor. -/
noncomputable def rowScale {n m : ℕ} (w : Fin n → ℝ)
    (G : Matrix (Fin n) (Fin m) ℝ) : Matrix (Fin n) (Fin m) ℝ :=
  Matrix.of fun t j => w t * G t j

/-- `GtWG = G.T @ (wadj * G)`. -/
noncomputable def GtWG {n m : ℕ} (G : Matrix (Fin n) (Fin m) ℝ)
    (w : Fin n → ℝ) : Matrix (Fin m) (Fin m) ℝ :=
  G.transpose * rowScale w G

/-- The VB marginal-variance expression (lines 311 and 631-632):
`(G * (G - G @ GtWG + G @ (GtWG @ solve(Ir + GtWG, GtWG)))).sum(axis=1)`,
the diagonal of the Woodbury-reduced covariance. -/
noncomputable def vDim {nbin rank : ℕ} (G : Matrix (Fin nbin) (Fin rank) ℝ)
    (w : Fin nbin → ℝ) : Fin nbin → ℝ :=
  let B := GtWG G w
  fun t => ∑ j, G t j * (G - G * B + G * (B * ((1 + B)⁻¹ * B))) t j

open Classical in
/-- One (trial, dimension) of `update_v` (lines 625-634) and of the
E-step's VB recomputation (lines 305-313): on a singular `I + GtWG` the
`except` branch leaves the previous variance in place. -/
noncomputable def update_v_dim {nbin rank : ℕ}
    (G : Matrix (Fin nbin) (Fin rank) ℝ) (w vold : Fin nbin → ℝ) :
    Fin nbin → ℝ :=
  if IsUnit (1 + GtWG G w).det then vDim G w else vold

/-! ### E-step (`core.py`, `estep`, lines 243-319)

One inner pass over one trial: `xb`, `eta` and `r` are computed once
before the latent-dimension loop (lines 273-275) and are NOT recomputed
inside it; the loop then updates `mu[trial, :, z_dim]` one dimension at a
time (lines 276-298), each dimension's residual being formed from the
frozen `eta`/`r` and its own posterior-mean column only.  After the loop
the pass recomputes `eta`, `r`, the working weight, and (under VB) the
marginal variance (lines 300-313).  The recorded per-dimension increment
`dmu` (line 297) is the difference of the returned and initial columns and
is not modelled separately. -/

/-- The working residual buffer (lines 261, 282-283): Poisson residual
`y - r` on spike columns, Gaussian residual `(y - eta)/noise` on LFP
columns, uninitialized contents elsewhere. -/
noncomputable def estepResidual {y : ℕ} {nbin : ℕ} (types : Fin y → ℤ)
    (noise : Fin y → ℝ) (y_t eta r uninitRes : Fin nbin → Fin y → ℝ) :
    Fin nbin → Fin y → ℝ :=
  fun t c => if types c = SPIKE then y_t t c - r t c
    else if types c = LFP then (y_t t c - eta t c) / noise c
    else uninitRes t c

open Classical in
/-- The Newton increment for one latent dimension (lines 285-295):
`u = G @ (G.T @ (residual @ a[z_dim, :])) - mu[trial, :, z_dim]`, the
Woodbury-form solve, clipping to `dmu_bound`; on a singular `I + GtWG`
the `except` branch yields a zero increment. -/
noncomputable def eDelta {y nbin rank : ℕ} (dmu_bound : ℝ)
    (G : Matrix (Fin nbin) (Fin rank) ℝ) (wcol : Fin nbin → ℝ)
    (residual : Fin nbin → Fin y → ℝ) (arow : Fin y → ℝ)
    (mucol : Fin nbin → ℝ) : Fin nbin → ℝ :=
  let B := GtWG G wcol
  let u : Fin nbin → ℝ := fun t =>
    G.mulVec (G.transpose.mulVec (fun s => ∑ c, residual s c * arow c)) t -
      mucol t
  if IsUnit (1 + B).det then
    let block := (1 + B)⁻¹.mulVec ((rowScale wcol G).transpose.mulVec u)
    fun t => clipR dmu_bound
      (u t - G.mulVec ((rowScale wcol G).transpose.mulVec u) t +
        G.mulVec (B.mulVec block) t)
  else fun _ => 0

/-- The latent-dimension loop of one E-step inner pass (lines 273-298):
`eta` and `r` frozen before the loop, then the in-place column updates.
Returns the updated posterior mean as a column map. -/
noncomputable def estepMuPass {z y nr nbin rank : ℕ} (dmu_bound : ℝ)
    (types : Fin y → ℤ) (noise : Fin y → ℝ)
    (prior : Fin z → Matrix (Fin nbin) (Fin rank) ℝ)
    (a : Matrix (Fin z) (Fin y) ℝ) (b : Matrix (Fin nr) (Fin y) ℝ)
    (y_t : Fin nbin → Fin y → ℝ) (x_t : Fin y → Fin nbin → Fin nr → ℝ)
    (uninitRes : Fin nbin → Fin y → ℝ)
    (mu_t w_t v_t : Matrix (Fin nbin) (Fin z) ℝ) :
    Fin z → Fin nbin → ℝ :=
  let xb : Fin nbin → Fin y → ℝ := fun t c => ∑ p, x_t c t p * b p c
  let eta : Fin nbin → Fin y → ℝ := fun t c => (mu_t * a) t c + xb t c
  let r : Fin nbin → Fin y → ℝ :=
    fun t c => sexp (eta t c + 0.5 * ∑ k, v_t t k * a k c ^ 2)
  let residual := estepResidual types noise y_t eta r uninitRes
  colFold
    (fun k mucol => fun t => mucol t +
      eDelta dmu_bound (prior k) (fun s => w_t s k) residual
        (fun c => a k c) mucol t)
    (List.finRange z) (fun k => fun t => mu_t t k)

/-- Modelled from the spec's words for comparison with `estepMuPass`
(claim C4 / spec §5: within a trial each dimension's increment depends on
the residual computed from the other dimensions' current values): the same
loop but with `eta` and `r` recomputed from the current posterior mean
before every dimension, so that earlier updates of the pass feed the later
residuals. -/
noncomputable def estepMuPassGaussSeidel {z y nr nbin rank : ℕ}
    (dmu_bound : ℝ) (types : Fin y → ℤ) (noise : Fin y → ℝ)
    (prior : Fin z → Matrix (Fin nbin) (Fin rank) ℝ)
    (a : Matrix (Fin z) (Fin y) ℝ) (b : Matrix (Fin nr) (Fin y) ℝ)
    (y_t : Fin nbin → Fin y → ℝ) (x_t : Fin y → Fin nbin → Fin nr → ℝ)
    (uninitRes : Fin nbin → Fin y → ℝ)
    (mu_t w_t v_t : Matrix (Fin nbin) (Fin z) ℝ) :
    Fin z → Fin nbin → ℝ :=
  let xb : Fin nbin → Fin y → ℝ := fun t c => ∑ p, x_t c t p * b p c
  (List.finRange z).foldl
    (fun m k =>
      let eta : Fin nbin → Fin y → ℝ :=
        fun t c => (∑ k', m k' t * a k' c) + xb t c
      let r : Fin nbin → Fin y → ℝ :=
        fun t c => sexp (eta t c + 0.5 * ∑ k', v_t t k' * a k' c ^ 2)
      let residual := estepResidual types noise y_t eta r uninitRes
      fun k' => if k' = k then
        (fun t => m k t +
          eDelta dmu_bound (prior k) (fun s => w_t s k) residual
            (fun c => a k c) (m k) t)
        else m k')
    (fun k => fun t => mu_t t k)

/-- One full E-step inner pass over one trial (lines 272-313): the
dimension loop, then the recomputation of `eta`, `r`, the working weight,
and (under VB) the marginal variance from the updated mean.  Returns
`(mu, w, v)` for the trial. -/
noncomputable def estepTrialPass {z y nr nbin rank : ℕ} (isVB : Bool)
    (dmu_bound : ℝ) (types : Fin y → ℤ) (noise : Fin y → ℝ)
    (prior : Fin z → Matrix (Fin nbin) (Fin rank) ℝ)
    (a : Matrix (Fin z) (Fin y) ℝ) (b : Matrix (Fin nr) (Fin y) ℝ)
    (y_t : Fin nbin → Fin y → ℝ) (x_t : Fin y → Fin nbin → Fin nr → ℝ)
    (uninitRes uninitU : Fin nbin → Fin y → ℝ)
    (mu_t w_t v_t : Matrix (Fin nbin) (Fin z) ℝ) :
    Matrix (Fin nbin) (Fin z) ℝ × Matrix (Fin nbin) (Fin z) ℝ ×
      Matrix (Fin nbin) (Fin z) ℝ :=
  let mucols := estepMuPass dmu_bound types noise prior a b y_t x_t
    uninitRes mu_t w_t v_t
  let mu' : Matrix (Fin nbin) (Fin z) ℝ := Matrix.of fun t k => mucols k t
  let xb : Fin nbin → Fin y → ℝ := fun t c => ∑ p, x_t c t p * b p c
  let eta : Fin nbin → Fin y → ℝ := fun t c => (mu' * a) t c + xb t c
  let r : Fin nbin → Fin y → ℝ :=
    fun t c => sexp (eta t c + 0.5 * ∑ k, v_t t k * a k c ^ 2)
  let w' := glmWeight a (workingU types noise r uninitU)
  let v' := if isVB then
      Matrix.of fun t k =>
        update_v_dim (prior k) (fun s => w' s k) (fun s => v_t s k) t
    else v_t
  (mu', w', v')

end VLGP

namespace VLGP

/-! ## Theorems -/

/-- Helper: the in-place column loop touches each column exactly once, so
the final value of column `c` is the one-shot update of its initial value
(or the initial value if `c` is not in the list). -/
theorem colFold_apply {κ β : Type} [DecidableEq κ] (f : κ → β → β)
    (ds : List κ) (hnd : ds.Nodup) (s : κ → β) (c : κ) :
    colFold f ds s c = if c ∈ ds then f c (s c) else s c := by
  induction ds generalizing s with
  | nil => simp [colFold]
  | cons d ds ih =>
    rcases List.nodup_cons.mp hnd with ⟨hd, hnd'⟩
    have hstep : colFold f (d :: ds) s =
        colFold f ds (fun e => if e = d then f d (s d) else s e) := rfl
    rw [hstep, ih hnd']
    by_cases hc : c = d
    · subst hc
      have : c ∉ ds := hd
      simp [this]
    · by_cases hm : c ∈ ds
      · simp [hm, hc, List.mem_cons]
      · have : c ∉ d :: ds := by
          simp [List.mem_cons, hc, hm]
        simp [hm, hc, this]

/-- **C9.** `initialize` marks a channel INACTIVE exactly when its pooled
sample variance over all trials and time bins is zero (channels already
tagged INACTIVE on input stay so); consequently a channel whose
observations are constant — including constant and nonzero — is classified
INACTIVE and has its loading and regression columns zeroed. -/
theorem initialize_inactive_iff_pooled_var_zero {n d z r : ℕ}
    (y_ : Fin n → Fin d → ℚ) (types : Fin d → ℤ)
    (a : Fin z → Fin d → ℚ) (b : Fin r → Fin d → ℚ) (c : Fin d) :
    (initTypes types (initNoise y_) c = INACTIVE ↔
      initNoise y_ c = 0 ∨ types c = INACTIVE) ∧
    ((∀ j j' : Fin n, y_ j c = y_ j' c) →
      initNoise y_ c = 0 ∧
      initTypes types (initNoise y_) c = INACTIVE ∧
      (∀ k, initZeroCols a (initTypes types (initNoise y_)) k c = 0) ∧
      (∀ p, initZeroCols b (initTypes types (initNoise y_)) p c = 0)) := by
  have hconst_var : (∀ j j' : Fin n, y_ j c = y_ j' c) → initNoise y_ c = 0 := by
    intro hc
    rcases Nat.eq_zero_or_pos n with hn | hn
    · subst hn
      simp [initNoise, npVar]
    · obtain ⟨j0⟩ := Fin.pos_iff_nonempty.mp hn
      have hval : ∀ j : Fin n, y_ j c = y_ j0 c := fun j => hc j j0
      have hsum : (∑ i : Fin n, y_ i c) = n * y_ j0 c := by
        rw [Finset.sum_congr rfl (fun i _ => hval i)]
        simp [Finset.sum_const, mul_comm]
      have hnne : (n : ℚ) ≠ 0 := Nat.cast_ne_zero.mpr hn.ne'
      have hmean : (∑ i : Fin n, y_ i c) / (n : ℚ) = y_ j0 c := by
        rw [hsum, mul_div_cancel_left₀ _ hnne]
      simp only [initNoise, npVar, hmean]
      have : ∀ i : Fin n, (y_ i c - y_ j0 c) ^ 2 = 0 := by
        intro i; rw [hval i]; ring
      rw [Finset.sum_congr rfl (fun i _ => this i)]
      simp
  constructor
  · constructor
    · intro h
      by_cases hz : initNoise y_ c = 0
      · exact Or.inl hz
      · right
        simpa [initTypes, hz] using h
    · intro h
      rcases h with hz | ht
      · simp [initTypes, hz]
      · by_cases hz : initNoise y_ c = 0
        · simp [initTypes, hz]
        · simpa [initTypes, hz] using ht
  · intro hc
    have hv := hconst_var hc
    have hty : initTypes types (initNoise y_) c = INACTIVE := by
      simp [initTypes, hv]
    exact ⟨hv, hty, fun k => by simp [initZeroCols, hty],
      fun p => by simp [initZeroCols, hty]⟩

/-- Witness for C9: a channel that is constant at the nonzero value 5 over
two pooled rows is classified INACTIVE and its columns are zeroed. -/
theorem initialize_inactive_iff_pooled_var_zero_witness :
    (∀ j j' : Fin 2, (fun (_ : Fin 2) (_ : Fin 1) => (5 : ℚ)) j 0 =
      (fun (_ : Fin 2) (_ : Fin 1) => (5 : ℚ)) j' 0) ∧
    (initNoise (fun (_ : Fin 2) (_ : Fin 1) => (5 : ℚ)) 0 = 0 ∧
      initTypes (fun _ => SPIKE)
        (initNoise (fun (_ : Fin 2) (_ : Fin 1) => (5 : ℚ))) 0 = INACTIVE ∧
      (∀ k : Fin 1, initZeroCols (fun (_ : Fin 1) (_ : Fin 1) => (3 : ℚ))
        (initTypes (fun _ => SPIKE)
          (initNoise (fun (_ : Fin 2) (_ : Fin 1) => (5 : ℚ)))) k 0 = 0) ∧
      (∀ p : Fin 1, initZeroCols (fun (_ : Fin 1) (_ : Fin 1) => (7 : ℚ))
        (initTypes (fun _ => SPIKE)
          (initNoise (fun (_ : Fin 2) (_ : Fin 1) => (5 : ℚ)))) p 0 = 0)) :=
  ⟨fun _ _ => rfl,
    (initialize_inactive_iff_pooled_var_zero
      (fun (_ : Fin 2) (_ : Fin 1) => (5 : ℚ)) (fun _ => SPIKE)
      (fun (_ : Fin 1) (_ : Fin 1) => (3 : ℚ))
      (fun (_ : Fin 1) (_ : Fin 1) => (7 : ℚ)) 0).2 (fun _ _ => rfl)⟩

/-- **C10.** `postprocess` mutates the model non-atomically: it first stores
the posterior covariance square root under `'L'`, then removes `'h'`, then
removes `'stat'`; on a model with no `'stat'` key (as produced by
`initialize` followed by `vem`, neither of which ever writes `'stat'`) it
raises `KeyError` after `'L'` has already been added and `'h'` already
removed — the error state carries exactly those two mutations. -/
theorem postprocess_keyerror_after_mutation {α β γ : Type}
    (computeL : PModel α β γ → α) (m : PModel α β γ) (hv : β)
    (hstat : m.stat = none) (hh : m.h = some hv) :
    postprocessKeys computeL m =
      .error (.keyStat, { m with L := some (computeL m), h := none }) := by
  simp only [postprocessKeys, popH, hh, popStat, hstat]

/-- Witness for C10 at a concrete model with `'h'` present and `'stat'`
absent. -/
theorem postprocess_keyerror_after_mutation_witness :
    (PModel.mk none (some ()) none : PModel Unit Unit Unit).stat
        = none ∧
    postprocessKeys (fun _ => ())
        (PModel.mk none (some ()) none : PModel Unit Unit Unit) =
      .error (.keyStat, PModel.mk (some ()) none none) :=
  ⟨rfl, postprocess_keyerror_after_mutation (fun _ => ())
    (PModel.mk none (some ()) none) () rfl rfl⟩

/-- **C2 (code bug).** The spec says callback exceptions are caught and
ignored so the driver proceeds, but the code wraps the call in
`try/finally: pass`, which re-raises: a raising callback aborts `vem` and
the exception propagates out.  Here a callback that raises `7` on a
3-iteration never-converging run makes `vemIterate` return that error
instead of completing the iterations. -/
theorem vem_callback_error_propagates :
    vemIterate (id : ℕ → ℕ) [fun _ => (Except.error 7 : Except ℕ ℕ)]
      (fun _ => false) 3 0 =
      .error 7 := rfl

/-- **C7.** For each latent dimension, the H-step retains the previous
timescale when the optimizer's timescale is `np.isclose` to either
configured bound, replaces it otherwise, and always accepts the scale as
`sigma = sqrt(sigmasq)`; a boundary result is an ordinary rejecting branch,
not an error. -/
theorem hstep_boundary_reject_accept_scale
    (omega_old sigma_old omega_new sigmasq : ℝ) (bound : ℝ × ℝ) :
    ((npIsClose omega_new bound.1 ∨ npIsClose omega_new bound.2) →
      (hstepAccept omega_old sigma_old omega_new sigmasq bound).1 = omega_old) ∧
    (¬(npIsClose omega_new bound.1 ∨ npIsClose omega_new bound.2) →
      (hstepAccept omega_old sigma_old omega_new sigmasq bound).1 = omega_new) ∧
    (hstepAccept omega_old sigma_old omega_new sigmasq bound).2 =
      Real.sqrt sigmasq := by
  refine ⟨fun h => ?_, fun h => ?_, rfl⟩
  · simp only [hstepAccept, if_pos h]
  · simp only [hstepAccept, if_neg h]

/-- Witness for C7: with bounds `(1e-5, 1e-3)`, the boundary result
`omega_new = 1e-3` is rejected (previous timescale `2e-4` kept) while the
interior result `omega_new = 5e-4` is accepted; the scale is set to
`sqrt(sigmasq)` in both cases. -/
theorem hstep_boundary_reject_accept_scale_witness :
    ((npIsClose 1e-3 (1e-5, 1e-3).1 ∨ npIsClose 1e-3 (1e-5, 1e-3).2) ∧
      (hstepAccept 2e-4 3 1e-3 4 (1e-5, 1e-3)).1 = 2e-4) ∧
    (¬(npIsClose 5e-4 (1e-5, 1e-3).1 ∨ npIsClose 5e-4 (1e-5, 1e-3).2) ∧
      (hstepAccept 2e-4 3 5e-4 4 (1e-5, 1e-3)).1 = 5e-4 ∧
      (hstepAccept 2e-4 3 5e-4 4 (1e-5, 1e-3)).2 = Real.sqrt 4) := by
  have hclose : npIsClose 1e-3 (1e-5, 1e-3).2 := by
    show |(1e-3 : ℝ) - 1e-3| ≤ 1e-8 + 1e-5 * |(1e-3 : ℝ)|
    rw [sub_self, abs_zero, abs_of_pos (by norm_num : (0 : ℝ) < 1e-3)]
    norm_num
  have hfar : ¬(npIsClose 5e-4 (1e-5, 1e-3).1 ∨ npIsClose 5e-4 (1e-5, 1e-3).2) := by
    rintro (h | h)
    · have h' : |(5e-4 : ℝ) - 1e-5| ≤ 1e-8 + 1e-5 * |(1e-5 : ℝ)| := h
      rw [abs_of_pos (by norm_num : (0 : ℝ) < 1e-5), abs_le] at h'
      norm_num at h'
    · have h' : |(5e-4 : ℝ) - 1e-3| ≤ 1e-8 + 1e-5 * |(1e-3 : ℝ)| := h
      rw [abs_of_pos (by norm_num : (0 : ℝ) < 1e-3), abs_le] at h'
      norm_num at h'
  exact ⟨⟨Or.inr hclose,
      (hstep_boundary_reject_accept_scale 2e-4 3 1e-3 4 (1e-5, 1e-3)).1
        (Or.inr hclose)⟩,
    ⟨hfar,
      (hstep_boundary_reject_accept_scale 2e-4 3 5e-4 4 (1e-5, 1e-3)).2.1 hfar,
      (hstep_boundary_reject_accept_scale 2e-4 3 5e-4 4 (1e-5, 1e-3)).2.2⟩⟩

/-- **C1.** Each Constraint Projector operation leaves the fitted linear
predictor `mu·a + regression(h,b)` unchanged in exact real arithmetic:
`constrain_mu` subtracts the cross-trial mean of `mu` per latent dimension
while adding that mean projected through `a` to the intercept row of `b`
(the intercept regressor column of `h` is all ones); `constrain_a` with a
norm specification rescales the loading rows with the compensating inverse
scale on `mu` (the norm is nonnegative and `eps > 0`, so the scale is
nonzero); `constrain_a` with `'svd'` rotates `a` to `Vh` while replacing
`mu` by `mu @ a @ Vh.T`, for any valid SVD factorization of `a`. -/
theorem constraint_projector_preserves_predictor {ι : Type} [Fintype ι]
    {z y nr : ℕ} (mu_ : Matrix ι (Fin z) ℝ) (a : Matrix (Fin z) (Fin y) ℝ)
    (x : Fin y → ι → Fin (nr + 1) → ℝ) (b : Matrix (Fin (nr + 1)) (Fin y) ℝ)
    (nrm : (Fin y → ℝ) → ℝ) (eps : ℝ) (U : Matrix (Fin z) (Fin z) ℝ)
    (sv : Fin z → ℝ) (Vh : Matrix (Fin z) (Fin y) ℝ)
    (hx0 : ∀ c j, x c j 0 = 1) (hnrm : ∀ r, 0 ≤ nrm r) (heps : 0 < eps)
    (hsvd : a = U * Matrix.diagonal sv * Vh)
    (horth : Vh * Vh.transpose = 1) :
    linPred (constrainMu mu_ a b).1 a x (constrainMu mu_ a b).2 =
      linPred mu_ a x b ∧
    linPred (constrainANorm nrm eps mu_ a).1 (constrainANorm nrm eps mu_ a).2
      x b = linPred mu_ a x b ∧
    linPred (constrainASvd mu_ a Vh).1 (constrainASvd mu_ a Vh).2 x b =
      linPred mu_ a x b := by
  refine ⟨?_, ?_, ?_⟩
  · funext j c
    simp only [linPred, constrainMu, Matrix.mul_apply, Matrix.of_apply]
    rw [Fin.sum_univ_succ, Fin.sum_univ_succ]
    simp only [if_pos rfl, Fin.succ_ne_zero, if_false, hx0, one_mul,
      eq_self_iff_true, if_true]
    have hsplit : ∑ k, (mu_ j k - (∑ i, mu_ i k) / (Fintype.card ι : ℝ)) * a k c
        = (∑ k, mu_ j k * a k c)
          - ∑ k, (∑ i, mu_ i k) / (Fintype.card ι : ℝ) * a k c := by
      rw [← Finset.sum_sub_distrib]
      exact Finset.sum_congr rfl fun k _ => sub_mul _ _ _
    rw [hsplit]
    ring
  · funext j c
    simp only [linPred, constrainANorm, Matrix.mul_apply, Matrix.of_apply]
    congr 1
    refine Finset.sum_congr rfl fun k _ => ?_
    have hs : nrm (fun c => a k c) + eps ≠ 0 :=
      ne_of_gt (add_pos_of_nonneg_of_pos (hnrm _) heps)
    field_simp
    ring
  · have key : a * Vh.transpose * Vh = a := by
      have hmid : Vh * Vh.transpose * Vh = Vh := by rw [horth, Matrix.one_mul]
      calc a * Vh.transpose * Vh
          = U * Matrix.diagonal sv * (Vh * Vh.transpose * Vh) := by
            rw [hsvd]; simp only [Matrix.mul_assoc]
        _ = U * Matrix.diagonal sv * Vh := by rw [hmid]
        _ = a := hsvd.symm
    have hmu : mu_ * a * Vh.transpose * Vh = mu_ * a := by
      rw [Matrix.mul_assoc mu_ a Vh.transpose,
        Matrix.mul_assoc mu_ (a * Vh.transpose) Vh, key]
    funext j c
    simp only [linPred, constrainASvd]
    rw [hmu]

/-- Witness for C1 at a concrete one-dimensional model: intercept column of
ones, `nrm = 0`, `eps = 1`, and the SVD `a = 1 · diag 1 · 1` of the
identity loading. -/
theorem constraint_projector_preserves_predictor_witness :
    ((∀ c j : Fin 1, (fun (_ : Fin 1) (_ : Fin 1) (_ : Fin 1) => (1 : ℝ)) c j 0 = 1) ∧
     (∀ r : Fin 1 → ℝ, (0 : ℝ) ≤ (fun _ => 0) r) ∧ (0 : ℝ) < 1 ∧
     (1 : Matrix (Fin 1) (Fin 1) ℝ) =
       (1 : Matrix (Fin 1) (Fin 1) ℝ) *
         Matrix.diagonal (fun _ : Fin 1 => (1 : ℝ)) *
         (1 : Matrix (Fin 1) (Fin 1) ℝ) ∧
     (1 : Matrix (Fin 1) (Fin 1) ℝ) *
       (1 : Matrix (Fin 1) (Fin 1) ℝ).transpose = 1) ∧
    (linPred
        (constrainMu (Matrix.of fun (_ : Fin 1) (_ : Fin 1) => (2 : ℝ))
          (1 : Matrix (Fin 1) (Fin 1) ℝ) (Matrix.of fun (_ : Fin 1) (_ : Fin 1) => (3 : ℝ))).1
        (1 : Matrix (Fin 1) (Fin 1) ℝ) (fun (_ : Fin 1) (_ : Fin 1) (_ : Fin 1) => (1 : ℝ))
        (constrainMu (Matrix.of fun (_ : Fin 1) (_ : Fin 1) => (2 : ℝ))
          (1 : Matrix (Fin 1) (Fin 1) ℝ) (Matrix.of fun (_ : Fin 1) (_ : Fin 1) => (3 : ℝ))).2 =
      linPred (Matrix.of fun (_ : Fin 1) (_ : Fin 1) => (2 : ℝ)) (1 : Matrix (Fin 1) (Fin 1) ℝ)
        (fun (_ : Fin 1) (_ : Fin 1) (_ : Fin 1) => (1 : ℝ)) (Matrix.of fun (_ : Fin 1) (_ : Fin 1) => (3 : ℝ)) ∧
     linPred
        (constrainANorm (fun _ => 0) 1 (Matrix.of fun (_ : Fin 1) (_ : Fin 1) => (2 : ℝ))
          (1 : Matrix (Fin 1) (Fin 1) ℝ)).1
        (constrainANorm (fun _ => 0) 1 (Matrix.of fun (_ : Fin 1) (_ : Fin 1) => (2 : ℝ))
          (1 : Matrix (Fin 1) (Fin 1) ℝ)).2
        (fun (_ : Fin 1) (_ : Fin 1) (_ : Fin 1) => (1 : ℝ)) (Matrix.of fun (_ : Fin 1) (_ : Fin 1) => (3 : ℝ)) =
      linPred (Matrix.of fun (_ : Fin 1) (_ : Fin 1) => (2 : ℝ)) (1 : Matrix (Fin 1) (Fin 1) ℝ)
        (fun (_ : Fin 1) (_ : Fin 1) (_ : Fin 1) => (1 : ℝ)) (Matrix.of fun (_ : Fin 1) (_ : Fin 1) => (3 : ℝ)) ∧
     linPred
        (constrainASvd (Matrix.of fun (_ : Fin 1) (_ : Fin 1) => (2 : ℝ))
          (1 : Matrix (Fin 1) (Fin 1) ℝ) (1 : Matrix (Fin 1) (Fin 1) ℝ)).1
        (constrainASvd (Matrix.of fun (_ : Fin 1) (_ : Fin 1) => (2 : ℝ))
          (1 : Matrix (Fin 1) (Fin 1) ℝ) (1 : Matrix (Fin 1) (Fin 1) ℝ)).2
        (fun (_ : Fin 1) (_ : Fin 1) (_ : Fin 1) => (1 : ℝ)) (Matrix.of fun (_ : Fin 1) (_ : Fin 1) => (3 : ℝ)) =
      linPred (Matrix.of fun (_ : Fin 1) (_ : Fin 1) => (2 : ℝ)) (1 : Matrix (Fin 1) (Fin 1) ℝ)
        (fun (_ : Fin 1) (_ : Fin 1) (_ : Fin 1) => (1 : ℝ)) (Matrix.of fun (_ : Fin 1) (_ : Fin 1) => (3 : ℝ))) := by
  have h1 : ∀ c j : Fin 1,
      (fun (_ : Fin 1) (_ : Fin 1) (_ : Fin 1) => (1 : ℝ)) c j 0 = 1 :=
    fun _ _ => rfl
  have h2 : ∀ r : Fin 1 → ℝ, (0 : ℝ) ≤ (fun _ => 0) r := fun _ => le_refl 0
  have h3 : (0 : ℝ) < 1 := one_pos
  have h4 : (1 : Matrix (Fin 1) (Fin 1) ℝ) =
      (1 : Matrix (Fin 1) (Fin 1) ℝ) *
        Matrix.diagonal (fun _ : Fin 1 => (1 : ℝ)) *
        (1 : Matrix (Fin 1) (Fin 1) ℝ) := by
    simp
  have h5 : (1 : Matrix (Fin 1) (Fin 1) ℝ) *
      (1 : Matrix (Fin 1) (Fin 1) ℝ).transpose = 1 := by
    simp
  exact ⟨⟨h1, h2, h3, h4, h5⟩,
    constraint_projector_preserves_predictor
      (Matrix.of fun (_ : Fin 1) (_ : Fin 1) => (2 : ℝ)) (1 : Matrix (Fin 1) (Fin 1) ℝ)
      (fun (_ : Fin 1) (_ : Fin 1) (_ : Fin 1) => (1 : ℝ)) (Matrix.of fun (_ : Fin 1) (_ : Fin 1) => (3 : ℝ)) (fun _ => 0) 1
      (1 : Matrix (Fin 1) (Fin 1) ℝ) (fun _ => 1)
      (1 : Matrix (Fin 1) (Fin 1) ℝ) h1 h2 h3 h4 h5⟩

/-- Counterexample for C3: at a single LFP channel with `v = a = noise = 1`
and everything else zero, the code's `ll` is `-1/2` (the Gaussian numerator
is `(y - eta)² + v·a² = 1`) while the claim's formula
`-½[(y-eta)²/noise + log noise]` gives `0`. -/
theorem elbo_ll_gaussian_counterexample :
    elbo_ll (fun (_ : Fin 1) (_ : Fin 1) => (0 : ℝ))
      (fun (_ : Fin 1) (_ : Fin 1) (_ : Fin 1) => (0 : ℝ))
      (Matrix.of fun (_ : Fin 1) (_ : Fin 1) => (0 : ℝ))
      (Matrix.of fun (_ : Fin 1) (_ : Fin 1) => (1 : ℝ))
      (Matrix.of fun (_ : Fin 1) (_ : Fin 1) => (1 : ℝ))
      (Matrix.of fun (_ : Fin 1) (_ : Fin 1) => (0 : ℝ))
      (fun _ => 1) (fun _ => LFP) = -(1 / 2) ∧
    elbo_ll_claimed (fun (_ : Fin 1) (_ : Fin 1) => (0 : ℝ))
      (fun (_ : Fin 1) (_ : Fin 1) (_ : Fin 1) => (0 : ℝ))
      (Matrix.of fun (_ : Fin 1) (_ : Fin 1) => (0 : ℝ))
      (Matrix.of fun (_ : Fin 1) (_ : Fin 1) => (1 : ℝ))
      (Matrix.of fun (_ : Fin 1) (_ : Fin 1) => (1 : ℝ))
      (Matrix.of fun (_ : Fin 1) (_ : Fin 1) => (0 : ℝ))
      (fun _ => 1) (fun _ => LFP) = 0 ∧
    elbo_ll (fun (_ : Fin 1) (_ : Fin 1) => (0 : ℝ))
      (fun (_ : Fin 1) (_ : Fin 1) (_ : Fin 1) => (0 : ℝ))
      (Matrix.of fun (_ : Fin 1) (_ : Fin 1) => (0 : ℝ))
      (Matrix.of fun (_ : Fin 1) (_ : Fin 1) => (1 : ℝ))
      (Matrix.of fun (_ : Fin 1) (_ : Fin 1) => (1 : ℝ))
      (Matrix.of fun (_ : Fin 1) (_ : Fin 1) => (0 : ℝ))
      (fun _ => 1) (fun _ => LFP) ≠
    elbo_ll_claimed (fun (_ : Fin 1) (_ : Fin 1) => (0 : ℝ))
      (fun (_ : Fin 1) (_ : Fin 1) (_ : Fin 1) => (0 : ℝ))
      (Matrix.of fun (_ : Fin 1) (_ : Fin 1) => (0 : ℝ))
      (Matrix.of fun (_ : Fin 1) (_ : Fin 1) => (1 : ℝ))
      (Matrix.of fun (_ : Fin 1) (_ : Fin 1) => (1 : ℝ))
      (Matrix.of fun (_ : Fin 1) (_ : Fin 1) => (0 : ℝ))
      (fun _ => 1) (fun _ => LFP) := by
  have h1 : elbo_ll (fun (_ : Fin 1) (_ : Fin 1) => (0 : ℝ))
      (fun (_ : Fin 1) (_ : Fin 1) (_ : Fin 1) => (0 : ℝ))
      (Matrix.of fun (_ : Fin 1) (_ : Fin 1) => (0 : ℝ))
      (Matrix.of fun (_ : Fin 1) (_ : Fin 1) => (1 : ℝ))
      (Matrix.of fun (_ : Fin 1) (_ : Fin 1) => (1 : ℝ))
      (Matrix.of fun (_ : Fin 1) (_ : Fin 1) => (0 : ℝ))
      (fun _ => 1) (fun _ => LFP) = -(1 / 2) := by
    norm_num [elbo_ll, linPred, rate, Matrix.mul_apply, Matrix.of_apply,
      Fin.sum_univ_one, SPIKE, LFP, Real.log_one]
  have h2 : elbo_ll_claimed (fun (_ : Fin 1) (_ : Fin 1) => (0 : ℝ))
      (fun (_ : Fin 1) (_ : Fin 1) (_ : Fin 1) => (0 : ℝ))
      (Matrix.of fun (_ : Fin 1) (_ : Fin 1) => (0 : ℝ))
      (Matrix.of fun (_ : Fin 1) (_ : Fin 1) => (1 : ℝ))
      (Matrix.of fun (_ : Fin 1) (_ : Fin 1) => (1 : ℝ))
      (Matrix.of fun (_ : Fin 1) (_ : Fin 1) => (0 : ℝ))
      (fun _ => 1) (fun _ => LFP) = 0 := by
    norm_num [elbo_ll_claimed, linPred, rate, Matrix.mul_apply,
      Matrix.of_apply, Fin.sum_univ_one, SPIKE, LFP, Real.log_one]
  exact ⟨h1, h2, by rw [h1, h2]; norm_num⟩

/-- **C3 (amended).** The data log-likelihood `ll` returned by `elbo` is
the Poisson term `Σ y·eta − r` over spike channels plus the Gaussian term
`−½ Σ [((y−eta)² + v·a²)/noise + log noise]` over LFP channels (the code
adds the posterior-variance correction `v·a²` to the squared residual,
which the claim as stated omits); equivalently, it equals the claim's
formula minus `½ Σ_LFP (v·a²)/noise`. -/
theorem elbo_ll_poisson_gaussian_decomposition {ι : Type} [Fintype ι]
    {z y nr : ℕ} (y_ : ι → Fin y → ℝ) (x : Fin y → ι → Fin nr → ℝ)
    (mu_ v_ : Matrix ι (Fin z) ℝ) (a : Matrix (Fin z) (Fin y) ℝ)
    (b : Matrix (Fin nr) (Fin y) ℝ) (noise : Fin y → ℝ)
    (types : Fin y → ℤ) :
    elbo_ll y_ x mu_ v_ a b noise types =
      (∑ j, ∑ c, if types c = SPIKE then
        y_ j c * linPred mu_ a x b j c -
          rate (linPred mu_ a x b) v_ a j c else 0) +
      (-0.5 * ∑ j, ∑ c, if types c = LFP then
        ((y_ j c - linPred mu_ a x b j c) ^ 2 + ∑ k, v_ j k * a k c ^ 2) /
            noise c + Real.log (noise c) else 0) ∧
    elbo_ll y_ x mu_ v_ a b noise types =
      elbo_ll_claimed y_ x mu_ v_ a b noise types -
        0.5 * ∑ j, ∑ c, (if types c = LFP then
          (∑ k, v_ j k * a k c ^ 2) / noise c else 0) := by
  constructor
  · rfl
  · simp only [elbo_ll, elbo_ll_claimed]
    have hsplit : ∀ (j : ι) (c : Fin y),
        (if types c = LFP then
          ((y_ j c - linPred mu_ a x b j c) ^ 2 + ∑ k, v_ j k * a k c ^ 2) /
              noise c + Real.log (noise c) else 0) =
        (if types c = LFP then
          (y_ j c - linPred mu_ a x b j c) ^ 2 / noise c +
            Real.log (noise c) else 0) +
        (if types c = LFP then (∑ k, v_ j k * a k c ^ 2) / noise c else 0) := by
      intro j c
      by_cases h : types c = LFP
      · rw [if_pos h, if_pos h, if_pos h, add_div]
        ring
      · simp [h]
    have hsum : ∀ j : ι,
        (∑ c, if types c = LFP then
          ((y_ j c - linPred mu_ a x b j c) ^ 2 + ∑ k, v_ j k * a k c ^ 2) /
              noise c + Real.log (noise c) else 0) =
        (∑ c, if types c = LFP then
          (y_ j c - linPred mu_ a x b j c) ^ 2 / noise c +
            Real.log (noise c) else 0) +
        ∑ c, (if types c = LFP then (∑ k, v_ j k * a k c ^ 2) / noise c
          else 0) := by
      intro j
      rw [← Finset.sum_add_distrib]
      exact Finset.sum_congr rfl fun c _ => hsplit j c
    rw [Finset.sum_congr rfl fun j _ => hsum j, Finset.sum_add_distrib]
    ring

/-- Helper: an invertible system solved by the inverse satisfies the
original equation. -/
theorem mulVec_inv_solution {n : ℕ} (A : Matrix (Fin n) (Fin n) ℝ)
    (rhs : Fin n → ℝ) (h : IsUnit A.det) :
    A.mulVec (A⁻¹.mulVec rhs) = rhs := by
  rw [Matrix.mulVec_mulVec, Matrix.mul_nonsing_inv _ h, Matrix.one_mulVec]

/-- **C6.** For an LFP channel in an M-step inner pass, the updated loading
column satisfies `(muᵀmu + diag(Σv))·a = muᵀ·(y − h·b)` with the channel's
pre-update regression column `b`, the regression solve satisfies
`(hᵀh)·b = hᵀ·(y − mu·a)` with the just-updated loading, and the stored
regression column is that solution at the intercept row and exactly zero
beyond it. -/
theorem mstep_lfp_normal_equations {ι : Type} [Fintype ι] {z y nr : ℕ}
    (hessian : Bool) (lr da_bound db_bound : ℝ) (y_ : ι → Fin y → ℝ)
    (x : Fin y → ι → Fin (nr + 1) → ℝ) (mu_ v_ : Matrix ι (Fin z) ℝ)
    (r : ι → Fin y → ℝ) (types : Fin y → ℤ) (c : Fin y)
    (acol : Fin z → ℝ) (bcol : Fin (nr + 1) → ℝ)
    (hty : types c = LFP)
    (h1 : IsUnit (mu_.transpose * mu_ +
      Matrix.diagonal fun k => ∑ j, v_ j k).det)
    (h2 : IsUnit ((Matrix.of fun j p => x c j p).transpose *
      Matrix.of fun j p => x c j p).det) :
    mstepChannel hessian lr da_bound db_bound y_ x mu_ v_ r types c acol bcol =
      (mstepLfpA mu_ v_ (fun j => y_ j c) (fun j p => x c j p) bcol,
       fun p => if p = 0 then
         mstepLfpBSolve mu_ (fun j => y_ j c) (fun j p => x c j p)
           (mstepLfpA mu_ v_ (fun j => y_ j c) (fun j p => x c j p) bcol) 0
         else 0) ∧
    (mu_.transpose * mu_ + Matrix.diagonal fun k => ∑ j, v_ j k).mulVec
      (mstepLfpA mu_ v_ (fun j => y_ j c) (fun j p => x c j p) bcol) =
      mu_.transpose.mulVec (fun j => y_ j c - ∑ p, x c j p * bcol p) ∧
    ((Matrix.of fun j p => x c j p).transpose *
      Matrix.of fun j p => x c j p).mulVec
      (mstepLfpBSolve mu_ (fun j => y_ j c) (fun j p => x c j p)
        (mstepLfpA mu_ v_ (fun j => y_ j c) (fun j p => x c j p) bcol)) =
      (Matrix.of fun j p => x c j p).transpose.mulVec
        (fun j => y_ j c - ∑ k, mu_ j k *
          mstepLfpA mu_ v_ (fun j => y_ j c) (fun j p => x c j p) bcol k) := by
  have hne : types c ≠ SPIKE := by
    rw [hty]
    decide
  refine ⟨?_, ?_, ?_⟩
  · simp only [mstepChannel, if_neg hne, if_pos hty]
  · exact mulVec_inv_solution _ _ h1
  · exact mulVec_inv_solution _ _ h2

/-- Witness for C6 at a concrete 1×1 LFP system where both normal-equation
matrices are the scalar 1. -/
theorem mstep_lfp_normal_equations_witness :
    ((fun _ : Fin 1 => LFP) 0 = LFP ∧
     IsUnit ((Matrix.of fun (_ : Fin 1) (_ : Fin 1) => (1 : ℝ)).transpose *
        (Matrix.of fun (_ : Fin 1) (_ : Fin 1) => (1 : ℝ)) +
        Matrix.diagonal fun k : Fin 1 =>
          ∑ j : Fin 1, (Matrix.of fun (_ : Fin 1) (_ : Fin 1) => (0 : ℝ)) j k).det ∧
     IsUnit ((Matrix.of fun (j : Fin 1) (p : Fin 1) =>
        (fun (_ : Fin 1) (_ : Fin 1) (_ : Fin 1) => (1 : ℝ)) 0 j p).transpose *
        Matrix.of fun (j : Fin 1) (p : Fin 1) =>
        (fun (_ : Fin 1) (_ : Fin 1) (_ : Fin 1) => (1 : ℝ)) 0 j p).det) ∧
    ((Matrix.of fun (_ : Fin 1) (_ : Fin 1) => (1 : ℝ)).transpose *
        (Matrix.of fun (_ : Fin 1) (_ : Fin 1) => (1 : ℝ)) +
        Matrix.diagonal fun k : Fin 1 =>
          ∑ j : Fin 1, (Matrix.of fun (_ : Fin 1) (_ : Fin 1) => (0 : ℝ)) j k).mulVec
      (mstepLfpA (Matrix.of fun (_ : Fin 1) (_ : Fin 1) => (1 : ℝ))
        (Matrix.of fun (_ : Fin 1) (_ : Fin 1) => (0 : ℝ))
        (fun j => (fun (_ : Fin 1) (_ : Fin 1) => (1 : ℝ)) j 0)
        (fun j p => (fun (_ : Fin 1) (_ : Fin 1) (_ : Fin 1) => (1 : ℝ)) 0 j p)
        (fun _ => 0)) =
      (Matrix.of fun (_ : Fin 1) (_ : Fin 1) => (1 : ℝ)).transpose.mulVec
        (fun j => (fun (_ : Fin 1) (_ : Fin 1) => (1 : ℝ)) j 0 -
          ∑ p : Fin 1,
            (fun (_ : Fin 1) (_ : Fin 1) (_ : Fin 1) => (1 : ℝ)) 0 j p *
              (fun _ : Fin 1 => (0 : ℝ)) p) := by
  have hty : (fun _ : Fin 1 => LFP) 0 = LFP := rfl
  have hdet1 : IsUnit ((Matrix.of fun (_ : Fin 1) (_ : Fin 1) => (1 : ℝ)).transpose *
      (Matrix.of fun (_ : Fin 1) (_ : Fin 1) => (1 : ℝ)) +
      Matrix.diagonal fun k : Fin 1 =>
        ∑ j : Fin 1, (Matrix.of fun (_ : Fin 1) (_ : Fin 1) => (0 : ℝ)) j k).det := by
    have : ((Matrix.of fun (_ : Fin 1) (_ : Fin 1) => (1 : ℝ)).transpose *
        (Matrix.of fun (_ : Fin 1) (_ : Fin 1) => (1 : ℝ)) +
        Matrix.diagonal fun k : Fin 1 =>
          ∑ j : Fin 1, (Matrix.of fun (_ : Fin 1) (_ : Fin 1) => (0 : ℝ)) j k).det = 1 := by
      rw [Matrix.det_fin_one]
      simp [Matrix.mul_apply, Matrix.add_apply, Matrix.diagonal,
        Fin.sum_univ_one, Matrix.transpose_apply]
    rw [this]
    exact isUnit_one
  have hdet2 : IsUnit ((Matrix.of fun (j : Fin 1) (p : Fin 1) =>
      (fun (_ : Fin 1) (_ : Fin 1) (_ : Fin 1) => (1 : ℝ)) 0 j p).transpose *
      Matrix.of fun (j : Fin 1) (p : Fin 1) =>
      (fun (_ : Fin 1) (_ : Fin 1) (_ : Fin 1) => (1 : ℝ)) 0 j p).det := by
    have : ((Matrix.of fun (j : Fin 1) (p : Fin 1) =>
        (fun (_ : Fin 1) (_ : Fin 1) (_ : Fin 1) => (1 : ℝ)) 0 j p).transpose *
        Matrix.of fun (j : Fin 1) (p : Fin 1) =>
        (fun (_ : Fin 1) (_ : Fin 1) (_ : Fin 1) => (1 : ℝ)) 0 j p).det = 1 := by
      rw [Matrix.det_fin_one]
      simp [Matrix.mul_apply, Fin.sum_univ_one, Matrix.transpose_apply]
    rw [this]
    exact isUnit_one
  exact ⟨⟨hty, hdet1, hdet2⟩,
    (mstep_lfp_normal_equations true 1 1 1
      (fun (_ : Fin 1) (_ : Fin 1) => (1 : ℝ))
      (fun (_ : Fin 1) (_ : Fin 1) (_ : Fin 1) => (1 : ℝ))
      (Matrix.of fun (_ : Fin 1) (_ : Fin 1) => (1 : ℝ))
      (Matrix.of fun (_ : Fin 1) (_ : Fin 1) => (0 : ℝ))
      (fun (_ : Fin 1) (_ : Fin 1) => (1 : ℝ)) (fun _ => LFP) 0
      (fun _ => 0) (fun _ => 0) hty hdet1 hdet2).2.1⟩

/-- Helper: with a zero working-weight column the Woodbury solve is
trivial and the Newton increment reduces to the clipped `u`. -/
theorem eDelta_zero_weight {y nbin rank : ℕ} (dmu_bound : ℝ)
    (G : Matrix (Fin nbin) (Fin rank) ℝ) (residual : Fin nbin → Fin y → ℝ)
    (arow : Fin y → ℝ) (mucol : Fin nbin → ℝ) :
    eDelta dmu_bound G (fun _ => 0) residual arow mucol = fun t =>
      clipR dmu_bound
        (G.mulVec (G.transpose.mulVec (fun s => ∑ c, residual s c * arow c)) t -
          mucol t) := by
  have hrs : rowScale (fun _ : Fin nbin => (0 : ℝ)) G = 0 := by
    ext t j
    simp [rowScale]
  have hB : GtWG G (fun _ : Fin nbin => (0 : ℝ)) = 0 := by
    rw [GtWG, hrs, Matrix.mul_zero]
  simp only [eDelta, hB, hrs, add_zero, Matrix.det_one, isUnit_one, if_true,
    Matrix.transpose_zero, Matrix.zero_mulVec, Matrix.mulVec_zero]
  funext t
  simp

/-- **C4 (amended).** Within a single E-step inner pass over one trial,
`eta` and `r` are computed once before the latent-dimension loop and are
not recomputed inside it, so every dimension's Newton increment is formed
from the pass-start state: the residual uses the pass-start predictor and
rate, and the increment of dimension `k` depends on the pass-start
posterior-mean column `k` only — updates already applied to earlier
dimensions in the same pass do not enter (Jacobi-style within the pass;
updated values feed the next inner iteration, not the current one). -/
theorem estep_pass_increments_from_pass_start {z y nr nbin rank : ℕ}
    (dmu_bound : ℝ) (types : Fin y → ℤ) (noise : Fin y → ℝ)
    (prior : Fin z → Matrix (Fin nbin) (Fin rank) ℝ)
    (a : Matrix (Fin z) (Fin y) ℝ) (b : Matrix (Fin nr) (Fin y) ℝ)
    (y_t : Fin nbin → Fin y → ℝ) (x_t : Fin y → Fin nbin → Fin nr → ℝ)
    (uninitRes : Fin nbin → Fin y → ℝ)
    (mu_t w_t v_t : Matrix (Fin nbin) (Fin z) ℝ) (k : Fin z) :
    estepMuPass dmu_bound types noise prior a b y_t x_t uninitRes
      mu_t w_t v_t k = fun t => mu_t t k +
        eDelta dmu_bound (prior k) (fun s => w_t s k)
          (estepResidual types noise y_t
            (fun t c => (mu_t * a) t c + ∑ p, x_t c t p * b p c)
            (fun t c => sexp ((mu_t * a) t c + (∑ p, x_t c t p * b p c) +
              0.5 * ∑ k', v_t t k' * a k' c ^ 2))
            uninitRes)
          (fun c => a k c) (fun t => mu_t t k) t := by
  simp only [estepMuPass]
  rw [colFold_apply _ _ (List.nodup_finRange z) _ k]
  simp [List.mem_finRange]

/-- Counterexample for C4: one trial, one time bin, two latent dimensions,
one LFP channel, unit prior factors and loadings, `y = 2`, zero initial
state.  The code's pass gives dimension 1 the same residual (2) as
dimension 0, yielding `mu = (2, 2)`; a Gauss-Seidel pass that recomputes
`eta` after dimension 0's update gives dimension 1 the residual 0 and
`mu = (2, 0)`.  The claim — that dimension 1's `eta`/`r` incorporate
dimension 0's already-applied update — is false on the code. -/
theorem estep_gauss_seidel_counterexample :
    estepMuPass 10
      (fun _ : Fin 1 => LFP) (fun _ : Fin 1 => (1 : ℝ))
      (fun _ => Matrix.of fun (_ : Fin 1) (_ : Fin 1) => (1 : ℝ))
      (Matrix.of fun (_ : Fin 2) (_ : Fin 1) => (1 : ℝ))
      (Matrix.of fun (_ : Fin 1) (_ : Fin 1) => (0 : ℝ))
      (fun (_ : Fin 1) (_ : Fin 1) => (2 : ℝ))
      (fun (_ : Fin 1) (_ : Fin 1) (_ : Fin 1) => (0 : ℝ))
      (fun (_ : Fin 1) (_ : Fin 1) => (0 : ℝ))
      (Matrix.of fun (_ : Fin 1) (_ : Fin 2) => (0 : ℝ))
      (Matrix.of fun (_ : Fin 1) (_ : Fin 2) => (0 : ℝ))
      (Matrix.of fun (_ : Fin 1) (_ : Fin 2) => (0 : ℝ)) 1 0 = 2 ∧
    estepMuPassGaussSeidel 10
      (fun _ : Fin 1 => LFP) (fun _ : Fin 1 => (1 : ℝ))
      (fun _ => Matrix.of fun (_ : Fin 1) (_ : Fin 1) => (1 : ℝ))
      (Matrix.of fun (_ : Fin 2) (_ : Fin 1) => (1 : ℝ))
      (Matrix.of fun (_ : Fin 1) (_ : Fin 1) => (0 : ℝ))
      (fun (_ : Fin 1) (_ : Fin 1) => (2 : ℝ))
      (fun (_ : Fin 1) (_ : Fin 1) (_ : Fin 1) => (0 : ℝ))
      (fun (_ : Fin 1) (_ : Fin 1) => (0 : ℝ))
      (Matrix.of fun (_ : Fin 1) (_ : Fin 2) => (0 : ℝ))
      (Matrix.of fun (_ : Fin 1) (_ : Fin 2) => (0 : ℝ))
      (Matrix.of fun (_ : Fin 1) (_ : Fin 2) => (0 : ℝ)) 1 0 = 0 ∧
    estepMuPass 10
      (fun _ : Fin 1 => LFP) (fun _ : Fin 1 => (1 : ℝ))
      (fun _ => Matrix.of fun (_ : Fin 1) (_ : Fin 1) => (1 : ℝ))
      (Matrix.of fun (_ : Fin 2) (_ : Fin 1) => (1 : ℝ))
      (Matrix.of fun (_ : Fin 1) (_ : Fin 1) => (0 : ℝ))
      (fun (_ : Fin 1) (_ : Fin 1) => (2 : ℝ))
      (fun (_ : Fin 1) (_ : Fin 1) (_ : Fin 1) => (0 : ℝ))
      (fun (_ : Fin 1) (_ : Fin 1) => (0 : ℝ))
      (Matrix.of fun (_ : Fin 1) (_ : Fin 2) => (0 : ℝ))
      (Matrix.of fun (_ : Fin 1) (_ : Fin 2) => (0 : ℝ))
      (Matrix.of fun (_ : Fin 1) (_ : Fin 2) => (0 : ℝ)) 1 0 ≠
    estepMuPassGaussSeidel 10
      (fun _ : Fin 1 => LFP) (fun _ : Fin 1 => (1 : ℝ))
      (fun _ => Matrix.of fun (_ : Fin 1) (_ : Fin 1) => (1 : ℝ))
      (Matrix.of fun (_ : Fin 2) (_ : Fin 1) => (1 : ℝ))
      (Matrix.of fun (_ : Fin 1) (_ : Fin 1) => (0 : ℝ))
      (fun (_ : Fin 1) (_ : Fin 1) => (2 : ℝ))
      (fun (_ : Fin 1) (_ : Fin 1) (_ : Fin 1) => (0 : ℝ))
      (fun (_ : Fin 1) (_ : Fin 1) => (0 : ℝ))
      (Matrix.of fun (_ : Fin 1) (_ : Fin 2) => (0 : ℝ))
      (Matrix.of fun (_ : Fin 1) (_ : Fin 2) => (0 : ℝ))
      (Matrix.of fun (_ : Fin 1) (_ : Fin 2) => (0 : ℝ)) 1 0 := by
  have hfr : List.finRange 2 = [0, 1] := by decide
  have hw : (fun s : Fin 1 =>
      (Matrix.of fun (_ : Fin 1) (_ : Fin 2) => (0 : ℝ)) s (1 : Fin 2)) =
      fun _ => (0 : ℝ) := rfl
  have hw0 : (fun s : Fin 1 =>
      (Matrix.of fun (_ : Fin 1) (_ : Fin 2) => (0 : ℝ)) s (0 : Fin 2)) =
      fun _ => (0 : ℝ) := rfl
  have h1 : estepMuPass 10
      (fun _ : Fin 1 => LFP) (fun _ : Fin 1 => (1 : ℝ))
      (fun _ => Matrix.of fun (_ : Fin 1) (_ : Fin 1) => (1 : ℝ))
      (Matrix.of fun (_ : Fin 2) (_ : Fin 1) => (1 : ℝ))
      (Matrix.of fun (_ : Fin 1) (_ : Fin 1) => (0 : ℝ))
      (fun (_ : Fin 1) (_ : Fin 1) => (2 : ℝ))
      (fun (_ : Fin 1) (_ : Fin 1) (_ : Fin 1) => (0 : ℝ))
      (fun (_ : Fin 1) (_ : Fin 1) => (0 : ℝ))
      (Matrix.of fun (_ : Fin 1) (_ : Fin 2) => (0 : ℝ))
      (Matrix.of fun (_ : Fin 1) (_ : Fin 2) => (0 : ℝ))
      (Matrix.of fun (_ : Fin 1) (_ : Fin 2) => (0 : ℝ)) 1 0 = 2 := by
    simp only [estepMuPass]
    rw [colFold_apply _ _ (List.nodup_finRange 2) _ 1]
    simp only [List.mem_finRange, if_true, hw, eDelta_zero_weight]
    norm_num [estepResidual, clipR, Matrix.mulVec, Matrix.dotProduct,
      Matrix.mul_apply, Matrix.of_apply, Matrix.transpose_apply,
      Fin.sum_univ_two, Fin.sum_univ_one, SPIKE, LFP]
  have h2 : estepMuPassGaussSeidel 10
      (fun _ : Fin 1 => LFP) (fun _ : Fin 1 => (1 : ℝ))
      (fun _ => Matrix.of fun (_ : Fin 1) (_ : Fin 1) => (1 : ℝ))
      (Matrix.of fun (_ : Fin 2) (_ : Fin 1) => (1 : ℝ))
      (Matrix.of fun (_ : Fin 1) (_ : Fin 1) => (0 : ℝ))
      (fun (_ : Fin 1) (_ : Fin 1) => (2 : ℝ))
      (fun (_ : Fin 1) (_ : Fin 1) (_ : Fin 1) => (0 : ℝ))
      (fun (_ : Fin 1) (_ : Fin 1) => (0 : ℝ))
      (Matrix.of fun (_ : Fin 1) (_ : Fin 2) => (0 : ℝ))
      (Matrix.of fun (_ : Fin 1) (_ : Fin 2) => (0 : ℝ))
      (Matrix.of fun (_ : Fin 1) (_ : Fin 2) => (0 : ℝ)) 1 0 = 0 := by
    simp only [estepMuPassGaussSeidel, hfr, List.foldl]
    norm_num [eDelta_zero_weight, hw, hw0, estepResidual, clipR,
      Matrix.mulVec, Matrix.dotProduct, Matrix.mul_apply, Matrix.of_apply,
      Matrix.transpose_apply, Fin.sum_univ_two, Fin.sum_univ_one,
      SPIKE, LFP]
  exact ⟨h1, h2, by rw [h1, h2]; norm_num⟩

/-- Helper: a constant channel has zero pooled variance. -/
theorem npVar_zero_of_const {n : ℕ} (ys : Fin n → ℚ) (v : ℚ)
    (h : ∀ j, ys j = v) : npVar ys = 0 := by
  rcases Nat.eq_zero_or_pos n with hn | hn
  · subst hn
    simp [npVar]
  · have hnne : (n : ℚ) ≠ 0 := Nat.cast_ne_zero.mpr hn.ne'
    have hsum : (∑ i : Fin n, ys i) = n * v := by
      rw [Finset.sum_congr rfl (fun i _ => h i)]
      simp [Finset.sum_const, mul_comm]
    have hmean : (∑ i : Fin n, ys i) / (n : ℚ) = v := by
      rw [hsum, mul_div_cancel_left₀ _ hnne]
    simp only [npVar, hmean]
    have hz : ∀ i : Fin n, (ys i - v) ^ 2 = 0 := by
      intro i; rw [h i]; ring
    rw [Finset.sum_congr rfl (fun i _ => hz i)]
    simp

/-- Counterexample for C5: with two latent dimensions and two channels,
channel 1 INACTIVE with its loading column already zeroed
(`a = [[1,0],[0,0]]`), the `'svd'` Constraint Projector replaces `a` by the
right-singular-vector factor of the valid SVD `a = 1 · diag(1,0) · 1`,
i.e. the identity, whose column 1 is `(0,1) ≠ 0`: the INACTIVE channel's
loading column does not remain zero under `constrain_a = 'svd'`. -/
theorem inactive_column_svd_counterexample :
    (!![(1 : ℝ), 0; 0, 0] =
      (1 : Matrix (Fin 2) (Fin 2) ℝ) * Matrix.diagonal ![(1 : ℝ), 0] *
        (1 : Matrix (Fin 2) (Fin 2) ℝ) ∧
     (1 : Matrix (Fin 2) (Fin 2) ℝ) *
       (1 : Matrix (Fin 2) (Fin 2) ℝ).transpose = 1) ∧
    (∀ k : Fin 2, (!![(1 : ℝ), 0; 0, 0]) k 1 = 0) ∧
    (constrainASvd (Matrix.of fun (_ : Fin 1) (_ : Fin 2) => (0 : ℝ))
      !![(1 : ℝ), 0; 0, 0] (1 : Matrix (Fin 2) (Fin 2) ℝ)).2 1 1 = 1 ∧
    ¬(∀ k : Fin 2,
      (constrainASvd (Matrix.of fun (_ : Fin 1) (_ : Fin 2) => (0 : ℝ))
        !![(1 : ℝ), 0; 0, 0] (1 : Matrix (Fin 2) (Fin 2) ℝ)).2 k 1 = 0) := by
  have hsvd : !![(1 : ℝ), 0; 0, 0] =
      (1 : Matrix (Fin 2) (Fin 2) ℝ) * Matrix.diagonal ![(1 : ℝ), 0] *
        (1 : Matrix (Fin 2) (Fin 2) ℝ) := by
    rw [Matrix.one_mul, Matrix.mul_one]
    ext i j
    fin_cases i <;> fin_cases j <;>
      simp [Matrix.diagonal]
  have hone : (constrainASvd (Matrix.of fun (_ : Fin 1) (_ : Fin 2) => (0 : ℝ))
      !![(1 : ℝ), 0; 0, 0] (1 : Matrix (Fin 2) (Fin 2) ℝ)).2 1 1 = 1 := by
    show (1 : Matrix (Fin 2) (Fin 2) ℝ) 1 1 = 1
    simp
  refine ⟨⟨hsvd, by simp⟩, ?_, hone, ?_⟩
  · intro k
    fin_cases k <;> simp
  · intro hall
    have := hall 1
    rw [hone] at this
    norm_num at this

/-- **C5 (amended).** A channel with all-zero observations is classified
INACTIVE by `initialize` and its loading and regression columns are set to
exactly zero; those columns then stay exactly zero through every M-step
pass (INACTIVE channels are skipped), every norm-based `constrain_a`
(`0 / s = 0`), and every `constrain_mu` (the intercept compensation is
`mean·a[:, c] = 0`); the E-step and H-step write only `mu`, `w`, `v`,
`sigma`, `omega` and the prior, never `a` or `b` (so in the embedding
`estepTrialPass` and `hstepAccept` do not even take `a`, `b` as outputs).
Under `constrain_a = 'svd'` the preservation FAILS (see the
counterexample), so the svd configuration is excluded here. -/
theorem inactive_channel_columns_stay_zero {n d zq rq : ℕ}
    (y_ : Fin n → Fin d → ℚ) (typesq : Fin d → ℤ)
    (aq : Fin zq → Fin d → ℚ) (bq : Fin rq → Fin d → ℚ) (c : Fin d)
    {ι : Type} [Fintype ι] {z y nr : ℕ} (hessian : Bool)
    (lr da_bound db_bound eps : ℝ) (yR : ι → Fin y → ℝ)
    (x : Fin y → ι → Fin (nr + 1) → ℝ) (mu_ v_ : Matrix ι (Fin z) ℝ)
    (typesR : Fin y → ℤ) (aR : Matrix (Fin z) (Fin y) ℝ)
    (bR : Matrix (Fin (nr + 1)) (Fin y) ℝ) (cR : Fin y)
    (nrm : (Fin y → ℝ) → ℝ)
    (h0 : ∀ j, y_ j c = 0)
    (htyR : typesR cR = INACTIVE)
    (hza : ∀ k, aR k cR = 0) (hzb : ∀ p, bR p cR = 0) :
    (initNoise y_ c = 0 ∧
     initTypes typesq (initNoise y_) c = INACTIVE ∧
     (∀ k, initZeroCols aq (initTypes typesq (initNoise y_)) k c = 0) ∧
     (∀ p, initZeroCols bq (initTypes typesq (initNoise y_)) p c = 0)) ∧
    (∀ k, (mstepPass hessian lr da_bound db_bound yR x mu_ v_ typesR
      aR bR).1 k cR = 0) ∧
    (∀ p, (mstepPass hessian lr da_bound db_bound yR x mu_ v_ typesR
      aR bR).2 p cR = 0) ∧
    (∀ k, (constrainANorm nrm eps mu_ aR).2 k cR = 0) ∧
    (∀ p, (constrainMu mu_ aR bR).2 p cR = 0) := by
  have hvar : initNoise y_ c = 0 :=
    npVar_zero_of_const _ 0 fun j => h0 j
  have hty : initTypes typesq (initNoise y_) c = INACTIVE := by
    simp [initTypes, hvar]
  have hnotspike : typesR cR ≠ SPIKE := by
    rw [htyR]; decide
  have hnotlfp : typesR cR ≠ LFP := by
    rw [htyR]; decide
  have hch : ∀ (r : ι → Fin y → ℝ),
      mstepChannel hessian lr da_bound db_bound yR x mu_ v_ r typesR cR
        (fun k => aR k cR) (fun p => bR p cR) =
      (fun k => aR k cR, fun p => bR p cR) := by
    intro r
    simp only [mstepChannel, if_neg hnotspike, if_neg hnotlfp]
  have hcol : ∀ (r : ι → Fin y → ℝ),
      colFold
        (fun cc ab => mstepChannel hessian lr da_bound db_bound yR x mu_ v_ r
          typesR cc ab.1 ab.2)
        (List.finRange y) (fun cc => (fun k => aR k cc, fun p => bR p cc))
        cR = (fun k => aR k cR, fun p => bR p cR) := by
    intro r
    rw [colFold_apply _ _ (List.nodup_finRange y) _ cR]
    simp only [List.mem_finRange, if_true]
    exact hch r
  refine ⟨⟨hvar, hty, fun k => by simp [initZeroCols, hty],
      fun p => by simp [initZeroCols, hty]⟩, ?_, ?_, ?_, ?_⟩
  · intro k
    simp only [mstepPass, Matrix.of_apply]
    rw [hcol]
    exact hza k
  · intro p
    simp only [mstepPass, Matrix.of_apply]
    rw [hcol]
    exact hzb p
  · intro k
    simp [constrainANorm, hza k]
  · intro p
    simp only [constrainMu, Matrix.of_apply]
    have : (∑ k, (∑ j, mu_ j k) / (Fintype.card ι : ℝ) * aR k cR) = 0 := by
      rw [Finset.sum_congr rfl fun k _ => by rw [hza k, mul_zero]]
      simp
    by_cases hp : p = 0
    · rw [if_pos hp, this, add_zero]
      exact hzb p
    · rw [if_neg hp]
      exact hzb p

/-- Witness for C5's amended theorem at a concrete all-zero channel and a
concrete INACTIVE channel with zeroed columns. -/
theorem inactive_channel_columns_stay_zero_witness :
    ((∀ j : Fin 1, (fun (_ : Fin 1) (_ : Fin 1) => (0 : ℚ)) j 0 = 0) ∧
     (fun _ : Fin 1 => INACTIVE) 0 = INACTIVE ∧
     (∀ k : Fin 1, (Matrix.of fun (_ : Fin 1) (_ : Fin 1) => (0 : ℝ)) k 0 = 0) ∧
     (∀ p : Fin 1, (Matrix.of fun (_ : Fin 1) (_ : Fin 1) => (0 : ℝ)) p 0 = 0)) ∧
    ((∀ k, (mstepPass true 1 1 1
      (fun (_ : Fin 1) (_ : Fin 1) => (0 : ℝ))
      (fun (_ : Fin 1) (_ : Fin 1) (_ : Fin 1) => (0 : ℝ))
      (Matrix.of fun (_ : Fin 1) (_ : Fin 1) => (0 : ℝ))
      (Matrix.of fun (_ : Fin 1) (_ : Fin 1) => (0 : ℝ))
      (fun _ => INACTIVE)
      (Matrix.of fun (_ : Fin 1) (_ : Fin 1) => (0 : ℝ))
      (Matrix.of fun (_ : Fin 1) (_ : Fin 1) => (0 : ℝ))).1 k 0 = 0) ∧
     (∀ k, (constrainANorm (fun _ : Fin 1 → ℝ => (0 : ℝ)) 1
      (Matrix.of fun (_ : Fin 1) (_ : Fin 1) => (0 : ℝ))
      (Matrix.of fun (_ : Fin 1) (_ : Fin 1) => (0 : ℝ))).2 k 0 = 0)) := by
  have h0 : ∀ j : Fin 1, (fun (_ : Fin 1) (_ : Fin 1) => (0 : ℚ)) j 0 = 0 :=
    fun _ => rfl
  have hty : (fun _ : Fin 1 => INACTIVE) 0 = INACTIVE := rfl
  have hza : ∀ k : Fin 1,
      (Matrix.of fun (_ : Fin 1) (_ : Fin 1) => (0 : ℝ)) k 0 = 0 := fun _ => rfl
  have hzb : ∀ p : Fin 1,
      (Matrix.of fun (_ : Fin 1) (_ : Fin 1) => (0 : ℝ)) p 0 = 0 := fun _ => rfl
  have main := inactive_channel_columns_stay_zero
    (fun (_ : Fin 1) (_ : Fin 1) => (0 : ℚ)) (fun _ : Fin 1 => SPIKE)
    (fun (_ : Fin 1) (_ : Fin 1) => (0 : ℚ))
    (fun (_ : Fin 1) (_ : Fin 1) => (0 : ℚ)) 0
    true 1 1 1 1
    (fun (_ : Fin 1) (_ : Fin 1) => (0 : ℝ))
    (fun (_ : Fin 1) (_ : Fin 1) (_ : Fin 1) => (0 : ℝ))
    (Matrix.of fun (_ : Fin 1) (_ : Fin 1) => (0 : ℝ))
    (Matrix.of fun (_ : Fin 1) (_ : Fin 1) => (0 : ℝ))
    (fun _ => INACTIVE)
    (Matrix.of fun (_ : Fin 1) (_ : Fin 1) => (0 : ℝ))
    (Matrix.of fun (_ : Fin 1) (_ : Fin 1) => (0 : ℝ)) 0
    (fun _ => 0) h0 hty hza hzb
  exact ⟨⟨h0, hty, hza, hzb⟩, main.2.1, main.2.2.2.1⟩

/-- Helper: `GtWG = Gᵀ (w ⊙ G)` is positive semidefinite when the weight
is elementwise nonnegative. -/
theorem GtWG_posSemidef {nbin rank : ℕ} (G : Matrix (Fin nbin) (Fin rank) ℝ)
    (w : Fin nbin → ℝ) (hw : ∀ t, 0 ≤ w t) : (GtWG G w).PosSemidef := by
  have hD : (Matrix.diagonal w).PosSemidef :=
    Matrix.posSemidef_diagonal_iff.mpr hw
  have h1 : GtWG G w = G.conjTranspose * Matrix.diagonal w * G := by
    rw [GtWG, Matrix.conjTranspose_eq_transpose_of_trivial, Matrix.mul_assoc]
    congr 1
    ext t j
    simp [rowScale, Matrix.diagonal_mul]
  rw [h1]
  exact hD.conjTranspose_mul_mul_same G

/-- Helper: the matrix `I - B + B (I+B)⁻¹ B` appearing in the VB variance
is exactly `(I+B)⁻¹` (Woodbury reduction). -/
theorem woodbury_reduction {n : ℕ} (B : Matrix (Fin n) (Fin n) ℝ)
    (h : IsUnit (1 + B).det) :
    1 - B + B * ((1 + B)⁻¹ * B) = (1 + B)⁻¹ := by
  have hinv1 : (1 + B) * (1 + B)⁻¹ = 1 := Matrix.mul_nonsing_inv _ h
  have hinv2 : (1 + B)⁻¹ * (1 + B) = 1 := Matrix.nonsing_inv_mul _ h
  have hcomm : B * (1 + B) = (1 + B) * B := by
    rw [mul_add, add_mul, mul_one, one_mul]
  have hc : B * (1 + B)⁻¹ = (1 + B)⁻¹ * B := by
    calc B * (1 + B)⁻¹
        = ((1 + B)⁻¹ * (1 + B)) * (B * (1 + B)⁻¹) := by rw [hinv2, one_mul]
      _ = (1 + B)⁻¹ * (((1 + B) * B) * (1 + B)⁻¹) := by
          simp only [Matrix.mul_assoc]
      _ = (1 + B)⁻¹ * ((B * (1 + B)) * (1 + B)⁻¹) := by rw [hcomm]
      _ = (1 + B)⁻¹ * (B * ((1 + B) * (1 + B)⁻¹)) := by
          simp only [Matrix.mul_assoc]
      _ = (1 + B)⁻¹ * B := by rw [hinv1, mul_one]
  have hkey : (1 + B) * (1 - B + B * ((1 + B)⁻¹ * B)) = 1 := by
    have h3 : (1 + B) * (B * ((1 + B)⁻¹ * B)) = B * B := by
      calc (1 + B) * (B * ((1 + B)⁻¹ * B))
          = (1 + B) * ((B * (1 + B)⁻¹) * B) := by simp only [Matrix.mul_assoc]
        _ = (1 + B) * (((1 + B)⁻¹ * B) * B) := by rw [hc]
        _ = ((1 + B) * (1 + B)⁻¹) * (B * B) := by simp only [Matrix.mul_assoc]
        _ = B * B := by rw [hinv1, one_mul]
    rw [mul_add, mul_sub, mul_one, h3, add_mul, one_mul]
    abel
  exact (Matrix.inv_eq_right_inv hkey).symm

/-- Helper: with elementwise-nonnegative weight, `I + GtWG` is positive
definite (hence invertible) and the VB marginal variance is the diagonal
of a positive-semidefinite matrix, so it is elementwise nonnegative. -/
theorem vDim_nonneg {nbin rank : ℕ} (G : Matrix (Fin nbin) (Fin rank) ℝ)
    (w : Fin nbin → ℝ) (hw : ∀ t, 0 ≤ w t) (t : Fin nbin) :
    0 ≤ vDim G w t := by
  have hPD : (1 + GtWG G w).PosDef :=
    Matrix.PosDef.add_posSemidef Matrix.PosDef.one (GtWG_posSemidef G w hw)
  have hdet : IsUnit (1 + GtWG G w).det := hPD.det_pos.ne'.isUnit
  have hMeq := woodbury_reduction (GtWG G w) hdet
  have hpsd : ((1 + GtWG G w)⁻¹).PosSemidef := hPD.inv.posSemidef
  have hfact : G - G * GtWG G w +
      G * (GtWG G w * ((1 + GtWG G w)⁻¹ * GtWG G w)) =
      G * (1 - GtWG G w + GtWG G w * ((1 + GtWG G w)⁻¹ * GtWG G w)) := by
    rw [Matrix.mul_add, Matrix.mul_sub, Matrix.mul_one]
  have hrow : star (fun j => G t j) = fun j => G t j :=
    funext fun j => star_trivial _
  have hval : vDim G w t =
      Matrix.dotProduct (star (fun j => G t j))
        ((1 + GtWG G w)⁻¹.mulVec (fun j => G t j)) := by
    simp only [vDim, hfact, hMeq, hrow]
    simp only [Matrix.dotProduct, Matrix.mulVec, Matrix.mul_apply]
    have lhs_eq : (∑ p, G t p * ∑ j, G t j * (1 + GtWG G w)⁻¹ j p) =
        ∑ p, ∑ j, G t p * (G t j * (1 + GtWG G w)⁻¹ j p) :=
      Finset.sum_congr rfl fun p _ => Finset.mul_sum _ _ _
    have rhs_eq : (∑ p, G t p * ∑ j, (1 + GtWG G w)⁻¹ p j * G t j) =
        ∑ p, ∑ j, G t p * ((1 + GtWG G w)⁻¹ p j * G t j) :=
      Finset.sum_congr rfl fun p _ => Finset.mul_sum _ _ _
    rw [lhs_eq, rhs_eq, Finset.sum_comm]
    exact Finset.sum_congr rfl fun p _ =>
      Finset.sum_congr rfl fun q _ => by ring
  rw [hval]
  exact hpsd.2 _

/-- Counterexample for C8: with a single UNUSED channel (the tag
`check_y_type` assigns to unrecognized channel-type strings) and unit
loading, the buffer `U = empty_like(r)` is never written on that column,
so `w = U @ (a.T ** 2)` picks up the uninitialized contents — here `-1` —
and is negative, while the claim's hypothesis (noise positive on LFP
channels) holds vacuously. -/
theorem update_w_unused_channel_counterexample :
    (∀ c : Fin 1, (fun _ : Fin 1 => UNUSED) c = LFP →
      0 < (fun _ : Fin 1 => (1 : ℝ)) c) ∧
    update_w (fun _ : Fin 1 => UNUSED) (fun _ : Fin 1 => (1 : ℝ))
      (fun (_ : Fin 1) (_ : Fin 1) (_ : Fin 1) => (0 : ℝ))
      (Matrix.of fun (_ : Fin 1) (_ : Fin 1) => (0 : ℝ))
      (Matrix.of fun (_ : Fin 1) (_ : Fin 1) => (0 : ℝ))
      (Matrix.of fun (_ : Fin 1) (_ : Fin 1) => (1 : ℝ))
      (Matrix.of fun (_ : Fin 1) (_ : Fin 1) => (0 : ℝ))
      (fun _ _ => -1) 0 0 = -1 ∧
    update_w (fun _ : Fin 1 => UNUSED) (fun _ : Fin 1 => (1 : ℝ))
      (fun (_ : Fin 1) (_ : Fin 1) (_ : Fin 1) => (0 : ℝ))
      (Matrix.of fun (_ : Fin 1) (_ : Fin 1) => (0 : ℝ))
      (Matrix.of fun (_ : Fin 1) (_ : Fin 1) => (0 : ℝ))
      (Matrix.of fun (_ : Fin 1) (_ : Fin 1) => (1 : ℝ))
      (Matrix.of fun (_ : Fin 1) (_ : Fin 1) => (0 : ℝ))
      (fun _ _ => -1) 0 0 < 0 := by
  have hval : update_w (fun _ : Fin 1 => UNUSED) (fun _ : Fin 1 => (1 : ℝ))
      (fun (_ : Fin 1) (_ : Fin 1) (_ : Fin 1) => (0 : ℝ))
      (Matrix.of fun (_ : Fin 1) (_ : Fin 1) => (0 : ℝ))
      (Matrix.of fun (_ : Fin 1) (_ : Fin 1) => (0 : ℝ))
      (Matrix.of fun (_ : Fin 1) (_ : Fin 1) => (1 : ℝ))
      (Matrix.of fun (_ : Fin 1) (_ : Fin 1) => (0 : ℝ))
      (fun _ _ => -1) 0 0 = -1 := by
    norm_num [update_w, glmWeight, workingU, UNUSED, SPIKE, LFP,
      Fin.sum_univ_one, Matrix.of_apply]
  have hnz : ∀ c : Fin 1, (fun _ : Fin 1 => UNUSED) c = LFP →
      0 < (fun _ : Fin 1 => (1 : ℝ)) c := by
    intro c h
    simp [UNUSED, LFP] at h
  exact ⟨hnz, hval, by rw [hval]; norm_num⟩

/-- **C8 (amended).** When the per-channel noise is positive on LFP
channels AND every channel is SPIKE, LFP, or has an all-zero loading
column (as INACTIVE channels do after initialization — without this the
uninitialized `U` buffer of an UNUSED channel can leak arbitrary values,
see the counterexample), every entry of the working weight produced by
`update_w` — and by the E-step's recomputation, which evaluates the same
`U @ (a.T ** 2)` at its own predictor — is nonnegative; and for any
elementwise-nonnegative weight the VB marginal variance
`diag G(I − GtWG + GtWG(I+GtWG)⁻¹GtWG)Gᵀ` is elementwise nonnegative
(`I + GtWG` is positive definite, so the `except` branch leaving the old
variance is never taken). -/
theorem working_weight_and_variance_nonneg {ι : Type} [Fintype ι]
    {z y nr nbin rank : ℕ} (types : Fin y → ℤ) (noise : Fin y → ℝ)
    (x : Fin y → ι → Fin nr → ℝ) (mu_ v_ : Matrix ι (Fin z) ℝ)
    (a : Matrix (Fin z) (Fin y) ℝ) (b : Matrix (Fin nr) (Fin y) ℝ)
    (uninitU : ι → Fin y → ℝ) (G : Matrix (Fin nbin) (Fin rank) ℝ)
    (w vold : Fin nbin → ℝ)
    (hnoise : ∀ c, types c = LFP → 0 < noise c)
    (hcov : ∀ c, types c = SPIKE ∨ types c = LFP ∨ ∀ k, a k c = 0)
    (hw : ∀ t, 0 ≤ w t) :
    (∀ (eta : ι → Fin y → ℝ) (t : ι) (k : Fin z),
      0 ≤ glmWeight a (workingU types noise (rate eta v_ a) uninitU) t k) ∧
    (∀ (t : ι) (k : Fin z),
      0 ≤ update_w types noise x mu_ v_ a b uninitU t k) ∧
    (∀ t : Fin nbin, 0 ≤ update_v_dim G w vold t) := by
  have hglm : ∀ (eta : ι → Fin y → ℝ) (t : ι) (k : Fin z),
      0 ≤ glmWeight a (workingU types noise (rate eta v_ a) uninitU) t k := by
    intro eta t k
    simp only [glmWeight, Matrix.of_apply]
    refine Finset.sum_nonneg fun c _ => ?_
    by_cases h1 : types c = SPIKE
    · simp only [workingU, if_pos h1]
      exact mul_nonneg (le_of_lt (Real.exp_pos _)) (sq_nonneg _)
    · by_cases h2 : types c = LFP
      · simp only [workingU, if_neg h1, if_pos h2]
        exact mul_nonneg (le_of_lt (one_div_pos.mpr (hnoise c h2)))
          (sq_nonneg _)
      · have hz : a k c = 0 := by
          rcases hcov c with h | h | h
          · exact absurd h h1
          · exact absurd h h2
          · exact h k
        simp [workingU, if_neg h1, if_neg h2, hz]
  refine ⟨hglm, fun t k => hglm _ t k, fun t => ?_⟩
  have hPD : (1 + GtWG G w).PosDef :=
    Matrix.PosDef.add_posSemidef Matrix.PosDef.one (GtWG_posSemidef G w hw)
  have hdet : IsUnit (1 + GtWG G w).det := hPD.det_pos.ne'.isUnit
  rw [update_v_dim, if_pos hdet]
  exact vDim_nonneg G w hw t

/-- Witness for C8: one SPIKE channel, positive noise, zero weight. -/
theorem working_weight_and_variance_nonneg_witness :
    ((∀ c : Fin 1, (fun _ : Fin 1 => SPIKE) c = LFP →
        0 < (fun _ : Fin 1 => (1 : ℝ)) c) ∧
     (∀ c : Fin 1, (fun _ : Fin 1 => SPIKE) c = SPIKE ∨
        (fun _ : Fin 1 => SPIKE) c = LFP ∨
        ∀ k : Fin 1, (Matrix.of fun (_ : Fin 1) (_ : Fin 1) => (1 : ℝ)) k c = 0) ∧
     (∀ t : Fin 1, (0 : ℝ) ≤ (fun _ => 0) t)) ∧
    ((∀ (t : Fin 1) (k : Fin 1),
      0 ≤ update_w (fun _ : Fin 1 => SPIKE) (fun _ : Fin 1 => (1 : ℝ))
        (fun (_ : Fin 1) (_ : Fin 1) (_ : Fin 1) => (0 : ℝ))
        (Matrix.of fun (_ : Fin 1) (_ : Fin 1) => (0 : ℝ))
        (Matrix.of fun (_ : Fin 1) (_ : Fin 1) => (0 : ℝ))
        (Matrix.of fun (_ : Fin 1) (_ : Fin 1) => (1 : ℝ))
        (Matrix.of fun (_ : Fin 1) (_ : Fin 1) => (0 : ℝ))
        (fun _ _ => -1) t k) ∧
     (∀ t : Fin 1,
      0 ≤ update_v_dim (Matrix.of fun (_ : Fin 1) (_ : Fin 1) => (1 : ℝ))
        (fun _ => 0) (fun _ => -5) t)) := by
  have hnoise : ∀ c : Fin 1, (fun _ : Fin 1 => SPIKE) c = LFP →
      0 < (fun _ : Fin 1 => (1 : ℝ)) c := by
    intro c h
    simp [SPIKE, LFP] at h
  have hcov : ∀ c : Fin 1, (fun _ : Fin 1 => SPIKE) c = SPIKE ∨
      (fun _ : Fin 1 => SPIKE) c = LFP ∨
      ∀ k : Fin 1, (Matrix.of fun (_ : Fin 1) (_ : Fin 1) => (1 : ℝ)) k c = 0 :=
    fun c => Or.inl rfl
  have hw : ∀ t : Fin 1, (0 : ℝ) ≤ (fun _ => 0) t := fun _ => le_refl 0
  have main := working_weight_and_variance_nonneg
    (fun _ : Fin 1 => SPIKE) (fun _ : Fin 1 => (1 : ℝ))
    (fun (_ : Fin 1) (_ : Fin 1) (_ : Fin 1) => (0 : ℝ))
    (Matrix.of fun (_ : Fin 1) (_ : Fin 1) => (0 : ℝ))
    (Matrix.of fun (_ : Fin 1) (_ : Fin 1) => (0 : ℝ))
    (Matrix.of fun (_ : Fin 1) (_ : Fin 1) => (1 : ℝ))
    (Matrix.of fun (_ : Fin 1) (_ : Fin 1) => (0 : ℝ))
    (fun _ _ => -1)
    (Matrix.of fun (_ : Fin 1) (_ : Fin 1) => (1 : ℝ))
    (fun _ => 0) (fun _ => -5) hnoise hcov hw
  exact ⟨⟨hnoise, hcov, hw⟩, main.2.1, main.2.2⟩

end VLGP
